import Mathlib

/-!
Verification development for a USD scene composer/validator pair
(`simple_composer.py`, `validate_composed.py`).

The scripts drive the USD Python API; here the scene model (prims,
metadata, custom data, attributes, relationships, variant sets) is
embedded as explicit Lean data, following the specification's data
model (a node owns metadata, attributes, relationships, variant sets
whose variants carry child subtrees, and default children), and the two
scripts' algorithms are translated over that model.  Recursive
traversals take an explicit fuel argument so that every function is
structurally recursive and computable; theorems that need "enough fuel"
take it as a hypothesis and are instantiated by concrete witnesses.
-/

namespace USDComp

/-- A metadata / attribute value.  Tagged union per the spec's Value
model: strings, integers, booleans, a dictionary (used for the
`customData` field), and an "unregistered" wrapper that transport may
add and that must be unwrapped before storage or comparison. -/
inductive Val where
  | s : String → Val
  | i : Int → Val
  | b : Bool → Val
  | dict : List (String × Val) → Val
  | unreg : Val → Val

/-- Python truthiness of a value, as used by `if not value` in
`copy_attributes`: empty string, zero, False and the empty dict are
falsy; an unregistered-value wrapper object is always truthy. -/
def Val.falsy : Val → Bool
  | .s str => str == ""
  | .i n => n == 0
  | .b bv => !bv
  | .dict entries => entries.isEmpty
  | .unreg _ => false

/-- One level of unregistered-value unwrapping, as done by
`if isinstance(src_val, Sdf.UnregisteredValue): src_val = src_val.value`. -/
def Val.unwrap : Val → Val
  | .unreg v => v
  | v => v

/-- An attribute: name, type name, variability, custom flag and an
optional current value (`Get()` returns `None` when no value is
authored). -/
structure Attrib where
  name : String
  typeName : String
  variability : String
  custom : Bool
  value : Option Val

mutual
/-- A prim (node) of a scene document: type name (`""` when unset),
typed metadata, the schema-free custom-data side channel, attributes,
relationships (name with ordered target-path list), variant sets and
default-scope children (name-keyed, ordered). -/
inductive Prim where
  | mk (typeName : String)
       (metadata : List (String × Val))
       (customData : List (String × Val))
       (attrs : List Attrib)
       (rels : List (String × List String))
       (vsets : List VSet)
       (children : List (String × Prim)) : Prim

/-- A variant set: name, declared variants and the current selection
(`""` when unset, matching `GetVariantSelection`'s empty-string
convention used by the scripts' `if sel:` tests). -/
inductive VSet where
  | mk (name : String) (variants : List Variant) (sel : String) : VSet

/-- A variant: its name and the child subtrees authored inside it (the
spec models variant content as child-subtree edits). -/
inductive Variant where
  | mk (name : String) (children : List (String × Prim)) : Variant
end

namespace Prim

def typeName : Prim → String | .mk t _ _ _ _ _ _ => t
def metadata : Prim → List (String × Val) | .mk _ m _ _ _ _ _ => m
def customData : Prim → List (String × Val) | .mk _ _ c _ _ _ _ => c
def attrs : Prim → List Attrib | .mk _ _ _ a _ _ _ => a
def rels : Prim → List (String × List String) | .mk _ _ _ _ r _ _ => r
def vsets : Prim → List VSet | .mk _ _ _ _ _ v _ => v
def children : Prim → List (String × Prim) | .mk _ _ _ _ _ _ c => c

def withTypeName (p : Prim) (t : String) : Prim :=
  .mk t p.metadata p.customData p.attrs p.rels p.vsets p.children
def withMetadata (p : Prim) (m : List (String × Val)) : Prim :=
  .mk p.typeName m p.customData p.attrs p.rels p.vsets p.children
def withCustomData (p : Prim) (c : List (String × Val)) : Prim :=
  .mk p.typeName p.metadata c p.attrs p.rels p.vsets p.children
def withAttrs (p : Prim) (a : List Attrib) : Prim :=
  .mk p.typeName p.metadata p.customData a p.rels p.vsets p.children
def withRels (p : Prim) (r : List (String × List String)) : Prim :=
  .mk p.typeName p.metadata p.customData p.attrs r p.vsets p.children
def withVsets (p : Prim) (v : List VSet) : Prim :=
  .mk p.typeName p.metadata p.customData p.attrs p.rels v p.children
def withChildren (p : Prim) (c : List (String × Prim)) : Prim :=
  .mk p.typeName p.metadata p.customData p.attrs p.rels p.vsets c

/-- A freshly defined prim of the given type, with no other content. -/
def newPrim (t : String) : Prim := .mk t [] [] [] [] [] []

end Prim

namespace VSet
def name : VSet → String | .mk n _ _ => n
def variants : VSet → List Variant | .mk _ v _ => v
def sel : VSet → String | .mk _ _ s => s
def withVariants (vs : VSet) (v : List Variant) : VSet := .mk vs.name v vs.sel
def withSel (vs : VSet) (s : String) : VSet := .mk vs.name vs.variants s
end VSet

namespace Variant
def name : Variant → String | .mk n _ => n
def children : Variant → List (String × Prim) | .mk _ c => c
def withChildren (v : Variant) (c : List (String × Prim)) : Variant :=
  .mk v.name c
end Variant

/-- First-match lookup in a name-keyed association list. -/
def alookup {α : Type} (n : String) : List (String × α) → Option α
  | [] => none
  | (k, v) :: rest => if k == n then some v else alookup n rest

/-- Whether a name occurs among the keys of an association list. -/
def hasKey {α : Type} (n : String) (l : List (String × α)) : Bool :=
  l.any (fun e => e.1 == n)

/-- Update-or-append in a name-keyed association list: the first entry
with the given name is replaced in place; if none exists the pair is
appended.  (Specs are path-unique in a scene document, so the
first-match convention agrees with the runtime's handle writes.) -/
def upsert {α : Type} (n : String) (v : α) : List (String × α) →
    List (String × α)
  | [] => [(n, v)]
  | e :: rest => if e.1 == n then (n, v) :: rest else e :: upsert n v rest

/-- Keys of an association list, in order. -/
def keysOf {α : Type} (l : List (String × α)) : List String := l.map (·.1)

/-- Find a declared variant by name in a variant set. -/
def VSet.findVariant (vs : VSet) (n : String) : Option Variant :=
  vs.variants.find? (fun v => v.name == n)

/-- Names of the declared variants of a set, in order. -/
def VSet.variantNames (vs : VSet) : List String := vs.variants.map (·.name)

/-- Find a variant set by name on a prim. -/
def Prim.findVSet (p : Prim) (n : String) : Option VSet :=
  p.vsets.find? (fun vs => vs.name == n)

/-- Replace the variant set of the given name (every occurrence). -/
def Prim.setVSet (p : Prim) (vs : VSet) : Prim :=
  if p.vsets.any (fun w => w.name == vs.name) then
    p.withVsets (p.vsets.map (fun w => if w.name == vs.name then vs else w))
  else p.withVsets (p.vsets ++ [vs])

/-- Modelled from the spec: the composed child view of a node, standing
in for the USD runtime's `GetChildren`, which the repository uses but
whose implementation is not part of it.  Per the spec, selecting a
variant is the only way to make that variant's child-subtree edits
visible, so the composed children are the default-scope children
followed by, for each variant set in order, the children of its
currently selected variant — a name already contributed by a stronger
(earlier) scope shadows a later spec of the same name entirely. -/
def composedChildren (p : Prim) : List (String × Prim) :=
  p.vsets.foldl
    (fun acc vs =>
      match vs.findVariant vs.sel with
      | some var => acc ++ var.children.filter (fun c => !(hasKey c.1 acc))
      | none => acc)
    p.children

/-- Modelled from the spec: composed single-child lookup, standing in
for the USD runtime's `GetChild` / per-segment `GetPrimAtPath`. -/
def getComposedChild (p : Prim) (n : String) : Option Prim :=
  alookup n (composedChildren p)

/-- Replace the first variant carrying the given name (the spec a
variant-set handle's write resolves to). -/
def replaceFirstVariant (sel : String) (g : Variant → Variant) :
    List Variant → List Variant
  | [] => []
  | w :: rest =>
    if w.name == sel then g w :: rest
    else w :: replaceFirstVariant sel g rest

/-- Write an updated child back into the variant it was composed from:
the first variant set whose selected variant declares the name receives
the update, in its first variant of the selected name. -/
def setChildInVSets (n : String) (c : Prim) : List VSet → List VSet
  | [] => []
  | vs :: rest =>
    match vs.findVariant vs.sel with
    | some var =>
      if hasKey n var.children then
        vs.withVariants (replaceFirstVariant vs.sel
          (fun w => w.withChildren (upsert n c w.children)) vs.variants)
        :: rest
      else vs :: setChildInVSets n c rest
    | none => vs :: setChildInVSets n c rest

/-- Modelled from the spec: write an updated child prim back to the
scope it was composed from — the default children when the name is
authored there (the stronger scope), otherwise the first variant set
whose selected variant declares it.  This is the write-through view of
a composed child handle held by the scripts. -/
def setComposedChild (p : Prim) (n : String) (c : Prim) : Prim :=
  if hasKey n p.children then p.withChildren (upsert n c p.children)
  else p.withVsets (setChildInVSets n c p.vsets)

/-- Modelled from the spec: `GetAllMetadata` — the node's typed
metadata mapping, with the custom-data side channel surfacing as a
single dictionary-valued entry under the reserved key `customData`
when non-empty, which is how the merge script's `customData` branch
observes it. -/
def allMetadata (p : Prim) : List (String × Val) :=
  p.metadata ++
    (if p.customData.isEmpty then [] else [("customData", Val.dict p.customData)])

/-- Modelled from the spec: `GetMetadata key` — the value of one typed
metadata field, with `customData` resolving to the side-channel
dictionary; `none` when the field carries no value. -/
def getMetadata (p : Prim) (key : String) : Option Val :=
  if key == "customData" then
    if p.customData.isEmpty then none else some (Val.dict p.customData)
  else alookup key p.metadata

/-- Modelled from the spec: `SetMetadata` — a direct write of a typed
metadata field. -/
def Prim.setMetadata (p : Prim) (key : String) (v : Val) : Prim :=
  p.withMetadata (upsert key v p.metadata)

/-- Modelled from the spec: `SetCustomDataByKey` — a write into the
schema-free custom-data side channel, distinct from typed metadata. -/
def Prim.setCustomDataByKey (p : Prim) (key : String) (v : Val) : Prim :=
  p.withCustomData (upsert key v p.customData)

/-! ## The merge engine (`simple_composer.py`) -/

/-- The reserved keys of `copy_metadata`'s `custom_data_keys` list
(`simple_composer.py` line 40): `comment`, `documentation` and
`focalLength`. -/
def customDataKeys : List String := ["comment", "documentation", "focalLength"]

/-- Python equality between a metadata key (a `str`) and an element of
`src_prim.GetAttributes()` (a `Usd.Attribute` object): objects of
unrelated types never compare equal under `==`, so this is constantly
false — the `key in src_attr_names` test on line 44 never fires. -/
def strEqAttrib (_key : String) (_a : Attrib) : Bool := false

/-- The `key in src_attr_names` membership test of `copy_metadata`
line 44, where `src_attr_names = src_prim.GetAttributes()` is a list of
attribute objects, not of names. -/
def keyInAttrList (key : String) (attrs : List Attrib) : Bool :=
  attrs.any (strEqAttrib key)

/-- `copy_metadata(src_prim, dst_prim)` (`simple_composer.py` lines
36-80): iterate the source's metadata; skip keys matching the attribute
list or the reserved list; unwrap unregistered values; fan the
`customData` dictionary out entry by entry into the destination's
custom-data channel when the entry's key is not among the destination's
(pre-call) metadata keys; write any other key into the custom-data
channel when absent from the destination's metadata keys, and directly
as metadata when present.  `dst_keys` is computed once, before the
loop, exactly as in the source. -/
def copyMetadata (src dst : Prim) : Prim :=
  let dstKeys := keysOf (allMetadata dst)
  (allMetadata src).foldl
    (fun d (kv : String × Val) =>
      let key := kv.1
      if keyInAttrList key src.attrs || key ∈ customDataKeys then d
      else
        let srcVal := kv.2.unwrap
        if key == "customData" then
          match srcVal with
          | Val.dict entries =>
            entries.foldl
              (fun d (ev : String × Val) =>
                let v := ev.2.unwrap
                if ev.1 ∈ dstKeys then d else d.setCustomDataByKey ev.1 v)
              d
          | _ => d
        else if key ∈ dstKeys then d.setMetadata key srcVal
        else d.setCustomDataByKey key srcVal)
    dst

/-- Create-or-replace of an attribute by name, the combined effect of
`CreateAttribute` (which returns the existing attribute when the name
matches) followed by `Set`. -/
def upsertAttr (a : Attrib) (l : List Attrib) : List Attrib :=
  if l.any (fun b => b.name == a.name) then
    l.map (fun b => if b.name == a.name then a else b)
  else l ++ [a]

/-- `copy_attributes(src_prim, dst_prim)` (`simple_composer.py` lines
83-115): for every source attribute whose current value is truthy,
create or fetch the destination attribute of the same name (same type,
variability and custom flag) and set its value; attributes with no
value or a falsy value are skipped. -/
def copyAttributes (src dst : Prim) : Prim :=
  src.attrs.foldl
    (fun d a =>
      match a.value with
      | none => d
      | some v =>
        if v.falsy then d
        else d.withAttrs (upsertAttr a d.attrs))
    dst

/-- `copy_relationships(src_prim, dst_prim)` (`simple_composer.py`
lines 118-124): for every source relationship, create the relationship
of the same name on the destination and set its targets to exactly the
source's target list, replacing any previous target list. -/
def copyRelationships (src dst : Prim) : Prim :=
  src.rels.foldl (fun d r => d.withRels (upsert r.1 r.2 d.rels)) dst

/-- The copy loop `for child in src.GetChildren(): _copy_prim(child,
dst_stage)` as it acts on one name-keyed children list of the
destination: each composed source child is recursively copied over the
like-named entry (or a fresh one) at its own path. -/
def copyChildrenFold (rec : Prim → Option Prim → Prim)
    (srcKids ch : List (String × Prim)) : List (String × Prim) :=
  srcKids.foldl (fun ch c => upsert c.1 (rec c.2 (alookup c.1 ch)) ch) ch

/-- `copy_variant_sets(src, dst)` (`simple_composer.py` lines 127-157),
with the recursive prim copy passed in as `rec`.  For every source
variant set: ensure the set and all of the source's variant names exist
on the destination; mirror the source's current selection onto both
sides (a no-op on the source, which already holds it); then, when the
selection names a declared variant on both sides, enter both variant
editing scopes and recursively copy every composed child of the source
into the destination variant's scope.  (When the selection is unset or
names no declared variant the runtime cannot produce an editing scope;
that fatal path carries no content to copy and is modelled as copying
nothing.)  The per-set loop body is factored out as
`copyVariantSetsStep`. -/
def copyVariantSetsStep (rec : Prim → Option Prim → Prim) (src : Prim)
    (d : Prim) (svs : VSet) : Prim :=
  let dvs := (d.findVSet svs.name).getD (VSet.mk svs.name [] "")
  let dvs := svs.variantNames.foldl
    (fun dvs v =>
      if v ∈ dvs.variantNames then dvs
      else dvs.withVariants (dvs.variants ++ [Variant.mk v []]))
    dvs
  let sel := svs.sel
  let dvs := if sel != "" then dvs.withSel sel else dvs
  let dvs :=
    if sel != "" && (svs.variantNames.contains sel)
        && (dvs.variantNames.contains sel) then
      dvs.withVariants
        (dvs.variants.map (fun w =>
          if w.name == sel then
            w.withChildren
              (copyChildrenFold rec (composedChildren src) w.children)
          else w))
    else dvs
  d.setVSet dvs

def copyVariantSets (rec : Prim → Option Prim → Prim) (src : Prim)
    (dst : Prim) : Prim :=
  src.vsets.foldl (copyVariantSetsStep rec src) dst

/-- `_copy_prim(src_prim, dst_stage)` (`simple_composer.py` lines
160-179), fueled.  Resolve or create the destination prim at the
source prim's path with the source's type (or the generic `Xform`
default when unset; per the spec's `define_node`, resolving an already
present node returns it unchanged); copy metadata, attributes and
relationships; copy variant sets (recursing inside the mirrored
selection's editing scope); finally recurse into the source's composed
children in the default scope.  With fuel exhausted the destination is
left unchanged. -/
def copyPrimF : Nat → Prim → Option Prim → Prim
  | 0, _, dst => dst.getD (Prim.newPrim "Xform")
  | fuel + 1, src, dst =>
    let t := if src.typeName != "" then src.typeName else "Xform"
    let d := match dst with
      | some d => d
      | none => Prim.newPrim t
    let d := copyMetadata src d
    let d := copyAttributes src d
    let d := copyRelationships src d
    let d := copyVariantSets (copyPrimF fuel) src d
    d.withChildren
      (copyChildrenFold (copyPrimF fuel) (composedChildren src) d.children)

/-- A document: its ordered forest of root prims, name-keyed. -/
abbrev Doc : Type := List (String × Prim)

/-- One `merge_file` pass (`simple_composer.py` lines 200-204): copy
every root prim of the source document into the output document at the
same root path. -/
def mergeFile (fuel : Nat) (src out : Doc) : Doc :=
  src.foldl
    (fun out (c : String × Prim) =>
      upsert c.1 (copyPrimF fuel c.2 (alookup c.1 out)) out)
    out

/-- `main` of `simple_composer.py` (lines 196-211): create a fresh
empty output document, merge source A, then merge source B. -/
def mergeRun (fuel : Nat) (a b : Doc) : Doc :=
  mergeFile fuel b (mergeFile fuel a ([] : Doc))

/-! ## The validator engine (`validate_composed.py`) -/

mutual
/-- Structural value equality, the meaning of Python's `==` on the
values the validator compares.  (Python compares dictionaries without
regard to insertion order; the model compares the entry lists in
order, which agrees with Python whenever both sides list their keys in
the same order, as every document produced by the merge model does.) -/
def valEq : Val → Val → Bool
  | .s a, .s b => a == b
  | .i a, .i b => a == b
  | .b a, .b b => a == b
  | .dict a, .dict b => valListEq a b
  | .unreg a, .unreg b => valEq a b
  | _, _ => false

/-- Entrywise equality of dictionary entry lists. -/
def valListEq : List (String × Val) → List (String × Val) → Bool
  | [], [] => true
  | (k, v) :: r, (k', v') :: r' => k == k' && valEq v v' && valListEq r r'
  | _, _ => false
end

/-- Equality on optional values, the Python comparison `src_val !=
dst_val` where either side may be `None`. -/
def optValEq : Option Val → Option Val → Bool
  | none, none => true
  | some a, some b => valEq a b
  | _, _ => false

/-- A validation diagnostic.  The script accumulates formatted strings;
each constructor here carries exactly the data its format string
interpolates (the node path first). -/
inductive Diag where
  | missingPrim (path : String)
  | typeMismatch (path srcType dstType : String)
  | metadataMismatch (path key : String) (srcVal dstVal : Option Val)
  | missingRel (path name : String)
  | relTargetsDiffer (path name : String) (srcTargets dstTargets : List String)
  | extraRel (path name : String)
  | missingVSet (path name : String)
  | extraVSet (path name : String)
  | missingVariant (path setName vName : String)
  | extraVariant (path setName vName : String)
  | selMismatch (path setName srcSel dstSel : String)
  | missingChildInVariant (path vName childName : String)

/-- `validate_metadata` (`validate_composed.py` lines 30-38): for every
source metadata entry, compare it with the destination's value for the
same key. -/
def validateMetadata (path : String) (src dst : Prim) : List Diag :=
  (allMetadata src).foldl
    (fun ds (kv : String × Val) =>
      if optValEq (some kv.2) (getMetadata dst kv.1) then ds
      else ds ++ [Diag.metadataMismatch path kv.1 (some kv.2) (getMetadata dst kv.1)])
    []

/-- Python's `set(...)` equality on target lists: same elements,
order ignored. -/
def targetSetEq (a b : List String) : Bool :=
  a.all (b.contains ·) && b.all (a.contains ·)

/-- Name-keyed dictionary built from a relationship list, as the
comprehension `{r.GetName(): set(r.GetTargets()) for r in ...}` builds
it (a duplicated name keeps its first position with its last value). -/
def relDict (rels : List (String × List String)) :
    List (String × List String) :=
  rels.foldl (fun d r => upsert r.1 r.2 d) []

/-- `validate_relationships` (`validate_composed.py` lines 41-60):
report source relationships missing on the destination, common names
whose target sets differ, and destination relationships absent from
the source. -/
def validateRelationships (path : String) (src dst : Prim) : List Diag :=
  let srcRels := relDict src.rels
  let dstRels := relDict dst.rels
  let missing := srcRels.foldl
    (fun ds (r : String × List String) =>
      match alookup r.1 dstRels with
      | none => ds ++ [Diag.missingRel path r.1]
      | some dt =>
        if targetSetEq dt r.2 then ds
        else ds ++ [Diag.relTargetsDiffer path r.1 r.2 dt])
    []
  let extra := (keysOf dstRels).foldl
    (fun ds n =>
      if (keysOf srcRels).contains n then ds else ds ++ [Diag.extraRel path n])
    []
  missing ++ extra

/-- Mirror the selection write `GetVariantSet(name).SetVariantSelection(v)`. -/
def Prim.setVSetSel (p : Prim) (setName v : String) : Prim :=
  p.withVsets (p.vsets.map
    (fun vs => if vs.name == setName then vs.withSel v else vs))

/-- `validate_variant_sets` (`validate_composed.py` lines 63-108), with
the recursive prim validation passed in as `rec`.  Report variant sets
missing or extra by name; for common sets report variant-name
differences and selection mismatches; then, for every common variant,
select it on both the source and the destination set and compare every
composed source child against the like-named composed destination
child, recursing when it exists.  (Python iterates name sets in
unspecified order; the model iterates source order for source-derived
sets and destination order for destination-derived sets.)  Returns the
diagnostics and the two prims as left by the selection writes. -/
def validateVariantSets
    (rec : String → Prim → Option Prim → List Diag × Prim × Option Prim)
    (path : String) (src dst : Prim) : List Diag × Prim × Prim :=
  let srcNames := (src.vsets.map (·.name)).dedup
  let dstNames := (dst.vsets.map (·.name)).dedup
  let dsMissing := (srcNames.filter (fun n => !(dstNames.contains n))).map
    (Diag.missingVSet path)
  let dsExtra := (dstNames.filter (fun n => !(srcNames.contains n))).map
    (Diag.extraVSet path)
  (srcNames.filter (fun n => dstNames.contains n)).foldl
    (fun st name =>
      let ds := st.1
      let src := st.2.1
      let dst := st.2.2
      match src.findVSet name, dst.findVSet name with
      | some svar, some dvar =>
        let srcVars := svar.variantNames.dedup
        let dstVars := dvar.variantNames.dedup
        let ds := ds ++ (srcVars.filter (fun v => !(dstVars.contains v))).map
          (Diag.missingVariant path name)
        let ds := ds ++ (dstVars.filter (fun v => !(srcVars.contains v))).map
          (Diag.extraVariant path name)
        let ds := if svar.sel == dvar.sel then ds
          else ds ++ [Diag.selMismatch path name svar.sel dvar.sel]
        (srcVars.filter (fun v => dstVars.contains v)).foldl
          (fun st v =>
            let ds := st.1
            let src := (st.2.1 : Prim).setVSetSel name v
            let dst := (st.2.2 : Prim).setVSetSel name v
            (keysOf (composedChildren src)).foldl
              (fun st cn =>
                let ds := st.1
                let src := st.2.1
                let dst := st.2.2
                match getComposedChild src cn with
                | none => (ds, src, dst)
                | some c =>
                  match getComposedChild dst cn with
                  | none =>
                    (ds ++ [Diag.missingChildInVariant path v cn], src, dst)
                  | some dc =>
                    let r := rec (path ++ "/" ++ cn) c (some dc)
                    let src := setComposedChild src cn r.2.1
                    let dst := match r.2.2 with
                      | some dc' => setComposedChild dst cn dc'
                      | none => dst
                    (ds ++ r.1, src, dst))
              (ds, src, dst))
          (ds, src, dst)
      | _, _ => (ds, src, dst))
    (dsMissing ++ dsExtra, src, dst)

/-- `validate_prim` (`validate_composed.py` lines 111-132), fueled.
A missing or invalid destination prim yields one diagnostic and stops
the descent; otherwise compare type names, metadata, relationships and
variant sets (the latter rewriting selections on both sides), then
recurse into the composed children by name.  Returns the diagnostics
together with the source and destination prims as left by the
traversal's selection writes. -/
def validatePrimF : Nat → String → Prim → Option Prim →
    List Diag × Prim × Option Prim
  | 0, _, src, dst => ([], src, dst)
  | fuel + 1, path, src, dst =>
    match dst with
    | none => ([Diag.missingPrim path], src, none)
    | some d =>
      let ds0 := if src.typeName == d.typeName then []
        else [Diag.typeMismatch path src.typeName d.typeName]
      let ds1 := validateMetadata path src d
      let ds2 := validateRelationships path src d
      let r3 := validateVariantSets (validatePrimF fuel) path src d
      let src := r3.2.1
      let d := r3.2.2
      let final := (keysOf (composedChildren src)).foldl
        (fun st cn =>
          let ds := st.1
          let src := st.2.1
          let d := st.2.2
          match getComposedChild src cn with
          | none => (ds, src, d)
          | some c =>
            let r := validatePrimF fuel (path ++ "/" ++ cn) c
              (getComposedChild d cn)
            let src := setComposedChild src cn r.2.1
            let d := match r.2.2 with
              | some dc' => setComposedChild d cn dc'
              | none => d
            (ds ++ r.1, src, d))
        (([] : List Diag), src, d)
      (ds0 ++ ds1 ++ ds2 ++ r3.1 ++ final.1, final.2.1, some final.2.2)

/-- One source pass of the validator's `main` (`validate_composed.py`
lines 156-160): for every root prim of the source stage, look up the
composed stage's prim at the same path and validate it, threading the
selection writes through both documents. -/
def validatePass (fuel : Nat) (src comp : Doc) : List Diag × Doc × Doc :=
  (keysOf src).foldl
    (fun st n =>
      let ds := st.1
      let src := st.2.1
      let comp := st.2.2
      match alookup n src with
      | none => (ds, src, comp)
      | some p =>
        let r := validatePrimF fuel ("/" ++ n) p (alookup n comp)
        let src := upsert n r.2.1 src
        let comp := match r.2.2 with
          | some d => upsert n d comp
          | none => comp
        (ds ++ r.1, src, comp))
    (([] : List Diag), src, comp)

/-- The full validation run over sources A and B against the composed
document: pass A, then pass B against the documents as pass A left
them. -/
def validateRun (fuel : Nat) (a b c : Doc) : List Diag × Doc × Doc × Doc :=
  let ra := validatePass fuel a c
  let rb := validatePass fuel b ra.2.2
  (ra.1 ++ rb.1, ra.2.1, rb.2.1, rb.2.2)

/-- The accumulated diagnostic sequence of a validation run. -/
def validateErrors (fuel : Nat) (a b c : Doc) : List Diag :=
  (validateRun fuel a b c).1

/-- The composed (destination) document as a validation run leaves it. -/
def validateDst (fuel : Nat) (a b c : Doc) : Doc :=
  (validateRun fuel a b c).2.2.2

/-- `main` of `validate_composed.py` (lines 135-169): a document that
fails to open (modelled as `none`) aborts with exit code 2 before any
diagnostic is produced; otherwise the run exits 1 when diagnostics were
accumulated and 0 when none were. -/
def validateMain (fuel : Nat) :
    Option Doc → Option Doc → Option Doc → Nat × List Diag
  | some a, some b, some c =>
    let e := validateErrors fuel a b c
    (if e.isEmpty then 0 else 1, e)
  | _, _, _ => (2, [])

/-! ## Derived observation and measurement functions -/

/-- Composed descent to the node at a path below a prim, one name per
level, following the composed child view (`GetPrimAtPath`). -/
def descend : Nat → Prim → List String → Option Prim
  | _, p, [] => some p
  | 0, _, _ :: _ => none
  | f + 1, p, n :: rest => (getComposedChild p n).bind (fun c => descend f c rest)

/-- Document-level composed node lookup, the path given as its
non-empty segment list. -/
def docNodeAt (f : Nat) (d : Doc) (path : List String) : Option Prim :=
  match path with
  | [] => none
  | n :: rest => (alookup n d).bind (fun p => descend f p rest)

/-- Default-scope descent: follows only default-scope children, the
chain the merge's default-scope pass writes. -/
def descendDefault : Nat → Prim → List String → Option Prim
  | _, p, [] => some p
  | 0, _, _ :: _ => none
  | f + 1, p, n :: rest =>
    (alookup n p.children).bind (fun c => descendDefault f c rest)

/-- The generic default type: `src.GetTypeName() or 'Xform'`. -/
def orXform (t : String) : String := if t != "" then t else "Xform"

/-- Document-level default-scope node lookup. -/
def docDefaultAt (f : Nat) (d : Doc) (path : List String) : Option Prim :=
  match path with
  | [] => none
  | n :: rest => (alookup n d).bind (fun p => descendDefault f p rest)

/-- Whether an association list repeats a key. -/
def hasDupKeys {α : Type} : List (String × α) → Bool
  | [] => false
  | e :: rest => hasKey e.1 rest || hasDupKeys rest

/-- Well-formedness of a prim to the given depth: composed child names
are duplicate-free, recursively (scene paths are unique within one
document). -/
def wfPrimB : Nat → Prim → Bool
  | 0, _ => true
  | f + 1, p =>
    !(hasDupKeys (composedChildren p))
      && (composedChildren p).all (fun c => wfPrimB f c.2)

/-- Well-formedness of a document to the given depth. -/
def wfDocB (f : Nat) (d : Doc) : Bool :=
  !(hasDupKeys d) && d.all (fun c => wfPrimB f c.2)

/-- Whether a string list repeats an element. -/
def hasDupStr : List String → Bool
  | [] => false
  | s :: rest => rest.contains s || hasDupStr rest

/-- Strong well-formedness of a prim to the given depth: child names,
composed child names, variant-set names, per-set variant names and
per-variant child names are duplicate-free, recursively in the default
and variant scopes.  Every document a scene runtime hands out satisfies
this (specs are name-unique under one parent). -/
def wfStrongB : Nat → Prim → Bool
  | 0, _ => true
  | f + 1, p =>
    !(hasDupKeys p.children)
    && !(hasDupKeys (composedChildren p))
    && !(hasDupStr (p.vsets.map VSet.name))
    && p.vsets.all (fun vs =>
         !(hasDupStr vs.variantNames)
         && vs.variants.all (fun v =>
              !(hasDupKeys v.children)
              && v.children.all (fun c => wfStrongB f c.2)))
    && p.children.all (fun c => wfStrongB f c.2)

/-- Erase every variant-set selection, to the given depth, in the
default-scope and variant-scope subtrees alike. -/
def eraseSelF : Nat → Prim → Prim
  | 0, p => p
  | f + 1, p =>
    Prim.mk p.typeName p.metadata p.customData p.attrs p.rels
      (p.vsets.map (fun vs => VSet.mk vs.name
        (vs.variants.map (fun v => Variant.mk v.name
          (v.children.map (fun c => (c.1, eraseSelF f c.2))))) ""))
      (p.children.map (fun c => (c.1, eraseSelF f c.2)))

/-- Selection erasure over a document's roots. -/
def eraseSelDocF (f : Nat) (d : Doc) : Doc :=
  d.map (fun c => (c.1, eraseSelF f c.2))

/-- Every named entity of `old` still exists in `new`, to the given
depth: metadata keys, custom-data keys, attribute names, relationship
names, variant-set names, variant names, and (recursively) default and
variant children by name.  Values, targets and selections are allowed
to differ. -/
def extendsB : Nat → Prim → Prim → Bool
  | 0, _, _ => true
  | f + 1, old, new =>
    (keysOf old.metadata).all (fun k => hasKey k new.metadata)
    && (keysOf old.customData).all (fun k => hasKey k new.customData)
    && old.attrs.all (fun a => new.attrs.any (fun b => b.name == a.name))
    && (keysOf old.rels).all (fun k => hasKey k new.rels)
    && old.vsets.all (fun ovs =>
         match new.findVSet ovs.name with
         | none => false
         | some nvs =>
           ovs.variantNames.all (fun v => nvs.variantNames.contains v)
           && ovs.variants.all (fun ov =>
                match nvs.findVariant ov.name with
                | none => false
                | some nv => ov.children.all (fun oc =>
                    match alookup oc.1 nv.children with
                    | none => false
                    | some nc => extendsB f oc.2 nc)))
    && old.children.all (fun oc =>
         match alookup oc.1 new.children with
         | none => false
         | some nc => extendsB f oc.2 nc)

/-- Document-level entity preservation. -/
def extendsDocB (f : Nat) (old new : Doc) : Bool :=
  old.all (fun oc =>
    match alookup oc.1 new with
    | none => false
    | some nc => extendsB f oc.2 nc)

/-! ## Concrete scenario documents used by individual claims -/

/-- A prim whose variant set `vs` declares `Metal` (child `M`) and
`Plastic` (child `Pl`), with `Metal` selected. -/
def c1Src : Prim :=
  Prim.mk "Xform" [] [] [] []
    [VSet.mk "vs"
      [Variant.mk "Metal" [("M", Prim.newPrim "Xform")],
       Variant.mk "Plastic" [("Pl", Prim.newPrim "Xform")]] "Metal"] []

/-- The merge of the document `{P := c1Src}` with an empty second
source. -/
def c1Merged : Doc := mergeRun 2 [("P", c1Src)] []

/-- A prim carrying one metadata entry. -/
def mdPrim (k : String) (v : Val) : Prim := Prim.mk "Xform" [(k, v)] [] [] [] [] []

def c2PrimA : Prim := mdPrim "myKey" (Val.s "a")

def c2PrimB : Prim := mdPrim "myKey" (Val.s "b")

/-- Merge of two single-prim documents that define the same novel
metadata key with different values. -/
def c2Merged : Doc := mergeRun 2 [("P", c2PrimA)] [("P", c2PrimB)]

/-- A prim with an attribute named `size` and metadata keys `size` and
`focalLength`. -/
def c3Src : Prim :=
  Prim.mk "Xform" [("size", Val.s "1"), ("focalLength", Val.s "2")] []
    [⟨"size", "double", "varying", true, some (Val.s "1")⟩] [] [] []

/-- A document with one root prim carrying `comment` metadata. -/
def c4Doc : Doc := [("World", Prim.mk "Xform" [("comment", Val.s "hello")] [] [] [] [] [])]

/-- A prim with one relationship, as in the spec's concrete scenario. -/
def c6Src : Prim :=
  Prim.mk "Xform" [] [] [] [("boundMaterial", ["/World/Mat1"])] [] []

def c7Plain : Prim := Prim.mk "Xform" [] [] [] [] [] []

/-- Source document for the extra-relationship scenario: one plain
node. -/
def c7A : Doc := [("World", c7Plain)]

/-- Composed document carrying a node `Extra`, present in neither
source, with one relationship. -/
def c7Comp : Doc :=
  [("World", c7Plain), ("Extra", Prim.mk "Xform" [] [] [] [("r", ["/T"])] [] [])]

/-- Source with node `N` carrying a relationship that the composed
document lacks. -/
def c7MissA : Doc := [("N", c6Src)]

def c7MissComp : Doc := [("N", c7Plain)]

/-- Composed document whose node `N` carries a relationship absent from
the one source that declares `N`. -/
def c7ExtraComp : Doc :=
  [("N", Prim.mk "Xform" [] [] [] [("r2", ["/T2"])] [] [])]

/-- A document with a two-variant set currently selecting `a`. -/
def c8Doc : Doc :=
  [("P", Prim.mk "Xform" [] [] [] []
    [VSet.mk "vs" [Variant.mk "a" [], Variant.mk "b" []] "a"] [])]

/-! ## Association-list lemmas -/

theorem keysOf_cons {α : Type} (e : String × α) (l : List (String × α)) :
    keysOf (e :: l) = e.1 :: keysOf l := rfl

theorem mem_keysOf_cons {α : Type} {n : String} {e : String × α}
    {l : List (String × α)} :
    n ∈ keysOf (e :: l) ↔ n = e.1 ∨ n ∈ keysOf l := by
  rw [keysOf_cons, List.mem_cons]

theorem alookup_upsert_self {α : Type} (n : String) (v : α)
    (l : List (String × α)) : alookup n (upsert n v l) = some v := by
  induction l with
  | nil => simp [upsert, alookup]
  | cons e rest ih =>
    by_cases h : e.1 = n
    · simp [upsert, h, alookup]
    · simp [upsert, h, alookup, ih]

theorem alookup_upsert_ne {α : Type} (k n : String) (v : α)
    (l : List (String × α)) (h : k ≠ n) :
    alookup n (upsert k v l) = alookup n l := by
  induction l with
  | nil =>
    simp only [upsert, alookup]
    rw [if_neg (by simp [h])]
  | cons e rest ih =>
    by_cases he : e.1 = k
    · rw [upsert, if_pos (by simp [he])]
      simp only [alookup]
      rw [if_neg (by simp [h]), if_neg (by simp [he, h])]
    · rw [upsert, if_neg (by simp [he])]
      simp only [alookup]
      by_cases hn : e.1 = n
      · rw [if_pos (by simp [hn]), if_pos (by simp [hn])]
      · rw [if_neg (by simp [hn]), if_neg (by simp [hn]), ih]

theorem mem_keysOf_upsert {α : Type} (n : String) (v : α)
    (l : List (String × α)) : n ∈ keysOf (upsert n v l) := by
  induction l with
  | nil => simp [upsert, keysOf]
  | cons e rest ih =>
    by_cases h : e.1 = n
    · rw [upsert, if_pos (by simp [h]), mem_keysOf_cons]
      exact Or.inl rfl
    · rw [upsert, if_neg (by simp [h]), mem_keysOf_cons]
      exact Or.inr ih

theorem mem_keysOf_upsert_of_mem {α : Type} (k n : String) (v : α)
    (l : List (String × α)) (h : n ∈ keysOf l) :
    n ∈ keysOf (upsert k v l) := by
  induction l with
  | nil => simp [keysOf] at h
  | cons e rest ih =>
    rw [mem_keysOf_cons] at h
    by_cases he : e.1 = k
    · rw [upsert, if_pos (by simp [he]), mem_keysOf_cons]
      rcases h with h | h
      · exact Or.inl (h.trans he)
      · exact Or.inr h
    · rw [upsert, if_neg (by simp [he]), mem_keysOf_cons]
      rcases h with h | h
      · exact Or.inl h
      · exact Or.inr (ih h)

theorem hasKey_iff_mem_keysOf {α : Type} (n : String)
    (l : List (String × α)) : hasKey n l = true ↔ n ∈ keysOf l := by
  induction l with
  | nil => simp [hasKey, keysOf]
  | cons e rest ih =>
    rw [mem_keysOf_cons]
    simp only [hasKey] at ih
    simp only [hasKey, List.any_cons, Bool.or_eq_true, beq_iff_eq, ih]
    constructor
    · rintro (h | h)
      · exact Or.inl h.symm
      · exact Or.inr h
    · rintro (h | h)
      · exact Or.inl h.symm
      · exact Or.inr h

theorem alookup_isSome_iff_mem_keysOf {α : Type} (n : String)
    (l : List (String × α)) :
    (alookup n l).isSome = true ↔ n ∈ keysOf l := by
  induction l with
  | nil => simp [alookup, keysOf]
  | cons e rest ih =>
    rw [mem_keysOf_cons]
    by_cases h : e.1 = n
    · simp [alookup, h]
    · simp only [alookup, beq_iff_eq, if_neg h]
      rw [ih]
      constructor
      · exact Or.inr
      · rintro (hh | hh)
        · exact absurd hh.symm h
        · exact hh

theorem alookup_append_left {α : Type} (n : String)
    (l m : List (String × α)) (h : n ∈ keysOf l) :
    alookup n (l ++ m) = alookup n l := by
  induction l with
  | nil => simp [keysOf] at h
  | cons e rest ih =>
    rw [mem_keysOf_cons] at h
    by_cases he : e.1 = n
    · simp [alookup, he]
    · have h' : n ∈ keysOf rest := by
        rcases h with h | h
        · exact absurd h.symm he
        · exact h
      simp [alookup, he, ih h']

theorem alookup_append_right {α : Type} (n : String)
    (l m : List (String × α)) (h : ¬ n ∈ keysOf l) :
    alookup n (l ++ m) = alookup n m := by
  induction l with
  | nil => simp
  | cons e rest ih =>
    rw [mem_keysOf_cons] at h
    push_neg at h
    rw [List.cons_append, alookup,
      if_neg (by simp only [beq_iff_eq]; exact fun hh => h.1 hh.symm)]
    exact ih h.2

/-! ## Field-preservation lemmas for the merge steps -/

/-- Fold a step that stays inside a reflexive transitive relation. -/
theorem foldl_rel {α β : Type} (R : α → α → Prop)
    (htrans : ∀ a b c, R a b → R b c → R a c) (f : α → β → α)
    (hstep : ∀ x b, R x (f x b)) (l : List β) (a : α) (ha : R a a) :
    R a (l.foldl f a) := by
  have main : ∀ (l : List β) (x : α), R a x → R a (l.foldl f x) := by
    intro l
    induction l with
    | nil => exact fun x hx => hx
    | cons b bs ih => exact fun x hx => ih _ (htrans _ _ _ hx (hstep x b))
  exact main l a ha

/-- `y` agrees with `x` on every field except possibly metadata and
custom data. -/
def eqExceptMd (x y : Prim) : Prop :=
  y.typeName = x.typeName ∧ y.attrs = x.attrs ∧ y.rels = x.rels ∧
  y.vsets = x.vsets ∧ y.children = x.children

theorem eqExceptMd_refl (x : Prim) : eqExceptMd x x :=
  ⟨rfl, rfl, rfl, rfl, rfl⟩

theorem eqExceptMd_trans {x y z : Prim} (h1 : eqExceptMd x y)
    (h2 : eqExceptMd y z) : eqExceptMd x z :=
  ⟨h2.1.trans h1.1, h2.2.1.trans h1.2.1, h2.2.2.1.trans h1.2.2.1,
   h2.2.2.2.1.trans h1.2.2.2.1, h2.2.2.2.2.trans h1.2.2.2.2⟩

/-- `copy_metadata` only writes metadata and custom data: every other
field of the destination prim is untouched. -/
theorem copyMetadata_fields (src d : Prim) :
    eqExceptMd d (copyMetadata src d) := by
  unfold copyMetadata
  dsimp only
  refine foldl_rel eqExceptMd (fun _ _ _ => eqExceptMd_trans) _ ?_ _ _
    (eqExceptMd_refl d)
  intro x kv
  dsimp only
  split
  · exact eqExceptMd_refl x
  · split
    · split
      · refine foldl_rel eqExceptMd (fun _ _ _ => eqExceptMd_trans) _ ?_ _ _
          (eqExceptMd_refl x)
        intro y ev
        dsimp only
        split
        · exact eqExceptMd_refl y
        · exact ⟨rfl, rfl, rfl, rfl, rfl⟩
      · exact eqExceptMd_refl x
    · split
      · exact ⟨rfl, rfl, rfl, rfl, rfl⟩
      · exact ⟨rfl, rfl, rfl, rfl, rfl⟩

/-- `y` agrees with `x` on every field except possibly attributes. -/
def eqExceptAttrs (x y : Prim) : Prop :=
  y.typeName = x.typeName ∧ y.metadata = x.metadata ∧
  y.customData = x.customData ∧ y.rels = x.rels ∧
  y.vsets = x.vsets ∧ y.children = x.children

theorem eqExceptAttrs_trans {x y z : Prim} (h1 : eqExceptAttrs x y)
    (h2 : eqExceptAttrs y z) : eqExceptAttrs x z :=
  ⟨h2.1.trans h1.1, h2.2.1.trans h1.2.1, h2.2.2.1.trans h1.2.2.1,
   h2.2.2.2.1.trans h1.2.2.2.1, h2.2.2.2.2.1.trans h1.2.2.2.2.1,
   h2.2.2.2.2.2.trans h1.2.2.2.2.2⟩

/-- `copy_attributes` only writes attributes. -/
theorem copyAttributes_fields (src d : Prim) :
    eqExceptAttrs d (copyAttributes src d) := by
  unfold copyAttributes
  refine foldl_rel eqExceptAttrs (fun _ _ _ => eqExceptAttrs_trans) _ ?_ _ _
    ⟨rfl, rfl, rfl, rfl, rfl, rfl⟩
  intro x a
  dsimp only
  split
  · exact ⟨rfl, rfl, rfl, rfl, rfl, rfl⟩
  · split
    · exact ⟨rfl, rfl, rfl, rfl, rfl, rfl⟩
    · exact ⟨rfl, rfl, rfl, rfl, rfl, rfl⟩

/-- `y` agrees with `x` on every field except possibly relationships. -/
def eqExceptRels (x y : Prim) : Prop :=
  y.typeName = x.typeName ∧ y.metadata = x.metadata ∧
  y.customData = x.customData ∧ y.attrs = x.attrs ∧
  y.vsets = x.vsets ∧ y.children = x.children

theorem eqExceptRels_trans {x y z : Prim} (h1 : eqExceptRels x y)
    (h2 : eqExceptRels y z) : eqExceptRels x z :=
  ⟨h2.1.trans h1.1, h2.2.1.trans h1.2.1, h2.2.2.1.trans h1.2.2.1,
   h2.2.2.2.1.trans h1.2.2.2.1, h2.2.2.2.2.1.trans h1.2.2.2.2.1,
   h2.2.2.2.2.2.trans h1.2.2.2.2.2⟩

/-- `copy_relationships` only writes relationships. -/
theorem copyRelationships_fields (src d : Prim) :
    eqExceptRels d (copyRelationships src d) := by
  unfold copyRelationships
  refine foldl_rel eqExceptRels (fun _ _ _ => eqExceptRels_trans) _ ?_ _ _
    ⟨rfl, rfl, rfl, rfl, rfl, rfl⟩
  intro x r
  exact ⟨rfl, rfl, rfl, rfl, rfl, rfl⟩

/-- `y` agrees with `x` on every field except possibly variant sets. -/
def eqExceptVsets (x y : Prim) : Prop :=
  y.typeName = x.typeName ∧ y.metadata = x.metadata ∧
  y.customData = x.customData ∧ y.attrs = x.attrs ∧
  y.rels = x.rels ∧ y.children = x.children

theorem eqExceptVsets_trans {x y z : Prim} (h1 : eqExceptVsets x y)
    (h2 : eqExceptVsets y z) : eqExceptVsets x z :=
  ⟨h2.1.trans h1.1, h2.2.1.trans h1.2.1, h2.2.2.1.trans h1.2.2.1,
   h2.2.2.2.1.trans h1.2.2.2.1, h2.2.2.2.2.1.trans h1.2.2.2.2.1,
   h2.2.2.2.2.2.trans h1.2.2.2.2.2⟩

theorem setVSet_eqExceptVsets (p : Prim) (vs : VSet) :
    eqExceptVsets p (p.setVSet vs) := by
  unfold Prim.setVSet
  split
  · exact ⟨rfl, rfl, rfl, rfl, rfl, rfl⟩
  · exact ⟨rfl, rfl, rfl, rfl, rfl, rfl⟩

/-- `copy_variant_sets` only writes variant sets: in particular the
destination's default-scope children are untouched. -/
theorem copyVariantSets_fields (rec : Prim → Option Prim → Prim)
    (src d : Prim) : eqExceptVsets d (copyVariantSets rec src d) := by
  unfold copyVariantSets
  refine foldl_rel eqExceptVsets (fun _ _ _ => eqExceptVsets_trans) _ ?_ _ _
    ⟨rfl, rfl, rfl, rfl, rfl, rfl⟩
  intro x svs
  dsimp only
  exact setVSet_eqExceptVsets x _

/-! ## Unfolding and projection lemmas for the prim copy -/

/-- One-step unfolding of the prim copy at positive fuel. -/
theorem copyPrimF_succ_eq (f : Nat) (src : Prim) (odst : Option Prim) :
    copyPrimF (f + 1) src odst =
      (let d0 := match odst with
        | some d => d
        | none =>
          Prim.newPrim (if src.typeName != "" then src.typeName else "Xform")
      let d1 := copyVariantSets (copyPrimF f) src
        (copyRelationships src (copyAttributes src (copyMetadata src d0)))
      d1.withChildren
        (copyChildrenFold (copyPrimF f) (composedChildren src) d1.children)) := by
  cases odst <;> rfl

/-- Projection commutation through a fold. -/
theorem foldl_proj {α β γ : Type} (g : α → γ) (f : α → β → α)
    (h : γ → β → γ) (hcomm : ∀ x b, g (f x b) = h (g x) b) (l : List β)
    (a : α) : g (l.foldl f a) = l.foldl h (g a) := by
  induction l generalizing a with
  | nil => rfl
  | cons b bs ih => rw [List.foldl_cons, List.foldl_cons, ih, hcomm]

/-- The relationships left by `copy_relationships`: the source's
relationships upserted, in order, over the destination's. -/
theorem copyRelationships_rels (src d : Prim) :
    (copyRelationships src d).rels =
      src.rels.foldl (fun acc r => upsert r.1 r.2 acc) d.rels := by
  unfold copyRelationships
  exact foldl_proj Prim.rels _ _ (fun x b => rfl) _ _

/-- A fold of upserts leaves lookups of absent names unchanged. -/
theorem alookup_foldl_upsert_not_mem {α : Type} (n : String)
    (l : List (String × α)) (init : List (String × α))
    (h : ¬ n ∈ keysOf l) :
    alookup n (l.foldl (fun acc e => upsert e.1 e.2 acc) init) =
      alookup n init := by
  induction l generalizing init with
  | nil => rfl
  | cons e es ih =>
    rw [mem_keysOf_cons] at h
    push_neg at h
    rw [List.foldl_cons, ih _ h.2, alookup_upsert_ne _ _ _ _ (Ne.symm h.1)]

/-- A fold of upserts over entries with distinct names realizes each
entry exactly. -/
theorem alookup_foldl_upsert_nodup {α : Type} (l : List (String × α))
    (init : List (String × α)) (hnodup : (keysOf l).Nodup)
    (r : String × α) (hr : r ∈ l) :
    alookup r.1 (l.foldl (fun acc e => upsert e.1 e.2 acc) init) =
      some r.2 := by
  induction l generalizing init with
  | nil => cases hr
  | cons e es ih =>
    rw [keysOf_cons, List.nodup_cons] at hnodup
    rcases List.mem_cons.mp hr with h | h
    · subst h
      rw [List.foldl_cons,
        alookup_foldl_upsert_not_mem _ _ _ hnodup.1,
        alookup_upsert_self]
    · rw [List.foldl_cons]
      exact ih _ hnodup.2 h

theorem newPrim_fields (t : String) :
    (Prim.newPrim t).typeName = t ∧ (Prim.newPrim t).metadata = [] ∧
    (Prim.newPrim t).customData = [] ∧ (Prim.newPrim t).attrs = [] ∧
    (Prim.newPrim t).rels = [] ∧ (Prim.newPrim t).vsets = [] ∧
    (Prim.newPrim t).children = [] :=
  ⟨rfl, rfl, rfl, rfl, rfl, rfl, rfl⟩

/-- The type name of a copied prim: an existing destination prim keeps
its type; a freshly created one receives the source's type, or the
generic `Xform` default when the source's type is unset. -/
theorem copyPrimF_succ_typeName (f : Nat) (src : Prim)
    (odst : Option Prim) :
    (copyPrimF (f + 1) src odst).typeName =
      match odst with
      | some d => d.typeName
      | none => if src.typeName != "" then src.typeName else "Xform" := by
  rw [copyPrimF_succ_eq]
  cases odst with
  | some d =>
    show (copyVariantSets (copyPrimF f) src
      (copyRelationships src (copyAttributes src (copyMetadata src d)))).typeName
      = d.typeName
    exact ((copyVariantSets_fields _ src _).1.trans
      ((copyRelationships_fields src _).1.trans
        ((copyAttributes_fields src _).1.trans (copyMetadata_fields src d).1)))
  | none =>
    show (copyVariantSets (copyPrimF f) src
      (copyRelationships src (copyAttributes src (copyMetadata src _)))).typeName
      = _
    exact ((copyVariantSets_fields _ src _).1.trans
      ((copyRelationships_fields src _).1.trans
        ((copyAttributes_fields src _).1.trans (copyMetadata_fields src _).1)))

/-- The relationships of a copied prim: the source's upserted over the
existing destination's (or none). -/
theorem copyPrimF_succ_rels (f : Nat) (src : Prim) (odst : Option Prim) :
    (copyPrimF (f + 1) src odst).rels =
      src.rels.foldl (fun acc r => upsert r.1 r.2 acc)
        (match odst with | some d => d.rels | none => []) := by
  rw [copyPrimF_succ_eq]
  cases odst with
  | some d =>
    show (copyVariantSets (copyPrimF f) src
      (copyRelationships src (copyAttributes src (copyMetadata src d)))).rels = _
    rw [(copyVariantSets_fields _ src _).2.2.2.2.1, copyRelationships_rels,
      (copyAttributes_fields src _).2.2.2.1, (copyMetadata_fields src d).2.2.1]
  | none =>
    show (copyVariantSets (copyPrimF f) src
      (copyRelationships src (copyAttributes src (copyMetadata src _)))).rels = _
    rw [(copyVariantSets_fields _ src _).2.2.2.2.1, copyRelationships_rels,
      (copyAttributes_fields src _).2.2.2.1, (copyMetadata_fields src _).2.2.1]
    rfl

/-- The default-scope children of a copied prim: every composed source
child recursively copied over the existing destination's children (or
none). -/
theorem copyPrimF_succ_children (f : Nat) (src : Prim)
    (odst : Option Prim) :
    (copyPrimF (f + 1) src odst).children =
      copyChildrenFold (copyPrimF f) (composedChildren src)
        (match odst with | some d => d.children | none => []) := by
  rw [copyPrimF_succ_eq]
  cases odst with
  | some d =>
    show copyChildrenFold (copyPrimF f) (composedChildren src)
      (copyVariantSets (copyPrimF f) src
        (copyRelationships src (copyAttributes src (copyMetadata src d)))).children = _
    rw [(copyVariantSets_fields _ src _).2.2.2.2.2,
      (copyRelationships_fields src _).2.2.2.2.2,
      (copyAttributes_fields src _).2.2.2.2.2,
      (copyMetadata_fields src d).2.2.2.2]
  | none =>
    show copyChildrenFold (copyPrimF f) (composedChildren src)
      (copyVariantSets (copyPrimF f) src
        (copyRelationships src (copyAttributes src (copyMetadata src _)))).children = _
    rw [(copyVariantSets_fields _ src _).2.2.2.2.2,
      (copyRelationships_fields src _).2.2.2.2.2,
      (copyAttributes_fields src _).2.2.2.2.2,
      (copyMetadata_fields src _).2.2.2.2]
    rfl

/-! ## Composed-children structure lemmas -/

theorem keysOf_append {α : Type} (l m : List (String × α)) :
    keysOf (l ++ m) = keysOf l ++ keysOf m := by
  simp [keysOf]

/-- The composed children start with the default-scope children. -/
theorem composedChildren_prefix (p : Prim) :
    ∃ rest, composedChildren p = p.children ++ rest := by
  unfold composedChildren
  have main : ∀ (L : List VSet) (acc : List (String × Prim)),
      ∃ rest, L.foldl
        (fun acc vs =>
          match vs.findVariant vs.sel with
          | some var => acc ++ var.children.filter (fun c => !(hasKey c.1 acc))
          | none => acc) acc = acc ++ rest := by
    intro L
    induction L with
    | nil => exact fun acc => ⟨[], by simp⟩
    | cons vs rest ih =>
      intro acc
      rw [List.foldl_cons]
      cases hv : vs.findVariant vs.sel with
      | none =>
        simpa [hv] using ih acc
      | some var =>
        rcases ih (acc ++ var.children.filter (fun c => !(hasKey c.1 acc)))
          with ⟨r, hr⟩
        refine ⟨var.children.filter (fun c => !(hasKey c.1 acc)) ++ r, ?_⟩
        dsimp only
        rw [hr, List.append_assoc]
  rcases main p.vsets p.children with ⟨rest, hr⟩
  exact ⟨rest, hr⟩

/-- A name found among the default children is found among the composed
children, with the same (first-match) value. -/
theorem getComposedChild_of_mem_children (p : Prim) (n : String)
    (h : n ∈ keysOf p.children) :
    getComposedChild p n = alookup n p.children := by
  rcases composedChildren_prefix p with ⟨rest, hr⟩
  rw [getComposedChild, hr, alookup_append_left _ _ _ h]

/-- Key membership is monotone along the composed-children fold. -/
theorem mem_keys_composedFold_mono (n : String) (L : List VSet)
    (acc : List (String × Prim)) (h : n ∈ keysOf acc) :
    n ∈ keysOf (L.foldl
      (fun acc vs =>
        match vs.findVariant vs.sel with
        | some var => acc ++ var.children.filter (fun c => !(hasKey c.1 acc))
        | none => acc) acc) := by
  induction L generalizing acc with
  | nil => exact h
  | cons vs rest ih =>
    rw [List.foldl_cons]
    cases hv : vs.findVariant vs.sel with
    | none => exact ih acc h
    | some var =>
      exact ih _ (by rw [keysOf_append]; exact List.mem_append_left _ h)

/-- Every child name declared under a variant set's selected variant
appears among the prim's composed child names. -/
theorem mem_keys_composedChildren_of_selected (p : Prim) (vs : VSet)
    (hvs : vs ∈ p.vsets) (var : Variant)
    (hvar : vs.findVariant vs.sel = some var) (n : String)
    (hn : n ∈ keysOf var.children) :
    n ∈ keysOf (composedChildren p) := by
  unfold composedChildren
  have main : ∀ (L : List VSet), vs ∈ L → ∀ acc,
      n ∈ keysOf (L.foldl
        (fun acc vs =>
          match vs.findVariant vs.sel with
          | some var => acc ++ var.children.filter (fun c => !(hasKey c.1 acc))
          | none => acc) acc) := by
    intro L
    induction L with
    | nil => intro h; cases h
    | cons w rest ih =>
      intro hmem acc
      rw [List.foldl_cons]
      rcases List.mem_cons.mp hmem with h | h
      · subst h
        rw [hvar]
        apply mem_keys_composedFold_mono
        by_cases hin : n ∈ keysOf acc
        · rw [keysOf_append]; exact List.mem_append_left _ hin
        · rcases List.mem_map.mp hn with ⟨c, hc, hcn⟩
          rw [keysOf_append]
          refine List.mem_append_right _ ?_
          refine List.mem_map.mpr ⟨c, ?_, hcn⟩
          refine List.mem_filter.mpr ⟨hc, ?_⟩
          have : ¬ hasKey c.1 acc = true := by
            rw [hasKey_iff_mem_keysOf, hcn]
            exact hin
          simp [this]
      · exact ih h _
  exact main p.vsets hvs p.children

/-- Key membership is monotone along the recursive child-copy fold. -/
theorem mem_keys_copyChildrenFold_mono (rec : Prim → Option Prim → Prim)
    (n : String) (srcKids : List (String × Prim))
    (init : List (String × Prim)) (h : n ∈ keysOf init) :
    n ∈ keysOf (copyChildrenFold rec srcKids init) := by
  unfold copyChildrenFold
  induction srcKids generalizing init with
  | nil => exact h
  | cons c rest ih =>
    rw [List.foldl_cons]
    exact ih _ (mem_keysOf_upsert_of_mem _ _ _ _ h)

/-- Every copied source child name appears among the destination's
children names after the child-copy fold. -/
theorem mem_keys_copyChildrenFold (rec : Prim → Option Prim → Prim)
    (n : String) (srcKids : List (String × Prim))
    (init : List (String × Prim)) (h : n ∈ keysOf srcKids) :
    n ∈ keysOf (copyChildrenFold rec srcKids init) := by
  unfold copyChildrenFold
  induction srcKids generalizing init with
  | nil => cases h
  | cons c rest ih =>
    rw [List.foldl_cons]
    rcases mem_keysOf_cons.mp h with h | h
    · subst h
      exact mem_keys_copyChildrenFold_mono rec _ rest _ (mem_keysOf_upsert _ _ _)
    · exact ih _ h

/-! ## Metadata-copy lemmas -/

/-- The `key in src_attr_names` test of `copy_metadata` line 44 never
succeeds: it compares a string against attribute objects. -/
theorem keyInAttrList_false (k : String) (l : List Attrib) :
    keyInAttrList k l = false := by
  unfold keyInAttrList
  induction l with
  | nil => rfl
  | cons a as ih => simp only [List.any_cons, strEqAttrib, Bool.false_or]; exact ih

theorem upsert_isEmpty {α : Type} (n : String) (v : α)
    (l : List (String × α)) : (upsert n v l).isEmpty = false := by
  cases l with
  | nil => rfl
  | cons e r =>
    unfold upsert
    split <;> rfl

/-- `copy_metadata` from a source prim whose metadata is the single
non-reserved entry `(k, va)` and whose custom data is empty: the key
goes through a direct metadata write when the destination already lists
it, and through the custom-data side channel otherwise. -/
theorem copyMetadata_single (pa dst : Prim) (k : String) (va : Val)
    (hma : pa.metadata = [(k, va)]) (hca : pa.customData = [])
    (hk1 : ¬ k ∈ customDataKeys) (hk2 : k ≠ "customData") :
    copyMetadata pa dst =
      if k ∈ keysOf (allMetadata dst) then dst.setMetadata k va.unwrap
      else dst.setCustomDataByKey k va.unwrap := by
  unfold copyMetadata
  have hall : allMetadata pa = [(k, va)] := by
    simp [allMetadata, hma, hca]
  rw [hall, List.foldl_cons, List.foldl_nil]
  dsimp only
  rw [keyInAttrList_false, decide_eq_false hk1]
  rw [if_neg (by simp)]
  rw [if_neg (by simp [hk2])]

/-! ## Claim theorems -/

/-- C1 counterexample: the source's variant set `vs` declares variant
`Plastic` with child `Pl` (and selecting `Plastic` on the source makes
`Pl` visible there), the merged destination has the prim at the same
path, yet selecting `Plastic` on the merged destination and descending
does not find `Pl` — the merge copies only the currently selected
variant's children, so the claim's "every declared variant" fails. -/
theorem C1_variant_copy_counterexample :
    ((c1Src.findVSet "vs").bind
      (fun vs => (vs.findVariant "Plastic").map Variant.children)) =
        some [("Pl", Prim.newPrim "Xform")] ∧
    (getComposedChild (c1Src.setVSetSel "vs" "Plastic") "Pl").isSome = true ∧
    (alookup "P" c1Merged).isSome = true ∧
    ((alookup "P" c1Merged).map
      (fun p => (getComposedChild (p.setVSetSel "vs" "Plastic") "Pl").isSome)) =
        some false :=
  ⟨rfl, rfl, rfl, rfl⟩

/-- C1 (amended): only the currently selected variant's children are
copied, and they are authored in the destination's default scope as
well as inside the selected variant, so after the merge every child the
source declares under the *selected* variant of one of its variant sets
is found under the destination whatever variant is then selected;
children authored only under non-selected variants are not copied. -/
theorem C1_variant_copy_selected (f : Nat) (src : Prim) (odst : Option Prim)
    (vs : VSet) (hvs : vs ∈ src.vsets) (var : Variant)
    (hvar : vs.findVariant vs.sel = some var) (n : String)
    (hn : n ∈ keysOf var.children) (sName sVal : String) :
    (getComposedChild ((copyPrimF (f + 1) src odst).setVSetSel sName sVal)
      n).isSome = true := by
  have h1 : n ∈ keysOf (composedChildren src) :=
    mem_keys_composedChildren_of_selected src vs hvs var hvar n hn
  have h2 : n ∈ keysOf (copyPrimF (f + 1) src odst).children := by
    rw [copyPrimF_succ_children]
    exact mem_keys_copyChildrenFold _ _ _ _ h1
  have h3 : n ∈ keysOf
      (((copyPrimF (f + 1) src odst).setVSetSel sName sVal)).children := h2
  rw [getComposedChild_of_mem_children _ _ h3]
  exact (alookup_isSome_iff_mem_keysOf _ _).mpr h3

/-- C1 witness: the `Metal`-selected child `M` of `c1Src` is present
under the destination after the merge, whatever variant is selected
there. -/
theorem C1_variant_copy_selected_witness :
    (getComposedChild ((copyPrimF 1 c1Src none).setVSetSel "vs" "Plastic")
      "M").isSome = true :=
  C1_variant_copy_selected 0 c1Src none
    (VSet.mk "vs"
      [Variant.mk "Metal" [("M", Prim.newPrim "Xform")],
       Variant.mk "Plastic" [("Pl", Prim.newPrim "Xform")]] "Metal")
    (List.mem_cons_self _ _)
    (Variant.mk "Metal" [("M", Prim.newPrim "Xform")]) rfl
    "M" (by decide) "vs" "Plastic"

/-- C2 counterexample: both sources define the novel key `myKey`; after
merging A then B the destination holds B's value (under the custom-data
side channel), not the first source's value as the claim's novel-key
clause states. -/
theorem C2_metadata_precedence_counterexample :
    ((alookup "P" c2Merged).bind (fun p => alookup "myKey" p.customData)).map
      (valEq (Val.s "a")) = some false ∧
    ((alookup "P" c2Merged).bind (fun p => alookup "myKey" p.customData)).map
      (valEq (Val.s "b")) = some true ∧
    ((alookup "P" c2Merged).bind (fun p => alookup "myKey" p.metadata)) = none :=
  ⟨rfl, rfl, rfl⟩

/-- C2 (amended): the later source wins in both cases.  For a key
defined by both sources (here as each source's single metadata entry):
when the key already pre-exists on the destination's metadata, each pass
writes it directly, so B's value ends up in the metadata; when the key
is novel, each pass writes it through the custom-data side channel
(which never surfaces the key among the metadata keys), so B's value
overwrites A's there as well. -/
theorem C2_metadata_last_source_wins (pa pb dst : Prim) (k : String)
    (va vb : Val)
    (hma : pa.metadata = [(k, va)]) (hca : pa.customData = [])
    (hmb : pb.metadata = [(k, vb)]) (hcb : pb.customData = [])
    (hk1 : ¬ k ∈ customDataKeys) (hk2 : k ≠ "customData") :
    (k ∈ keysOf (allMetadata dst) →
      alookup k (copyMetadata pb (copyMetadata pa dst)).metadata
        = some vb.unwrap) ∧
    (¬ k ∈ keysOf (allMetadata dst) →
      alookup k (copyMetadata pb (copyMetadata pa dst)).customData
        = some vb.unwrap) := by
  rw [copyMetadata_single pa dst k va hma hca hk1 hk2]
  constructor
  · intro hmem
    rw [if_pos hmem]
    have hm1 : k ∈ keysOf (allMetadata (dst.setMetadata k va.unwrap)) := by
      rw [allMetadata, keysOf_append]
      exact List.mem_append_left _ (mem_keysOf_upsert _ _ _)
    rw [copyMetadata_single pb _ k vb hmb hcb hk1 hk2, if_pos hm1]
    exact alookup_upsert_self _ _ _
  · intro hmem
    rw [if_neg hmem]
    have hm1 : ¬ k ∈ keysOf (allMetadata (dst.setCustomDataByKey k va.unwrap)) := by
      intro hk
      rw [allMetadata] at hk
      rw [show (dst.setCustomDataByKey k va.unwrap).customData
          = upsert k va.unwrap dst.customData from rfl] at hk
      rw [upsert_isEmpty] at hk
      simp only [Bool.false_eq_true, if_false, keysOf_append] at hk
      rcases List.mem_append.mp hk with h | h
      · apply hmem
        rw [allMetadata, keysOf_append]
        exact List.mem_append_left _ h
      · exact hk2 (by simpa [keysOf] using h)
    rw [copyMetadata_single pb _ k vb hmb hcb hk1 hk2, if_neg hm1]
    exact alookup_upsert_self _ _ _

/-- C2 witness: on a fresh destination, the novel key ends with B's
value in the custom-data channel. -/
theorem C2_metadata_last_source_wins_witness :
    alookup "myKey"
      (copyMetadata c2PrimB
        (copyMetadata c2PrimA (Prim.newPrim "Xform"))).customData
      = some (Val.s "b") :=
  (C2_metadata_last_source_wins c2PrimA c2PrimB (Prim.newPrim "Xform")
    "myKey" (Val.s "a") (Val.s "b") rfl rfl rfl rfl (by decide) (by decide)).2
    (by decide)

/-- C3: evaluation of `copy_metadata` at a prim with an attribute named
`size` and metadata keys `size` and `focalLength`, against a fresh
destination.  The claim predicts that `size` (an attribute name) is
skipped and `focalLength` is processed; the code does the reverse:
`size` is processed (landing in the custom-data channel, since the
`key in src_prim.GetAttributes()` test compares the key against
attribute objects and never fires) while `focalLength` is skipped (it
sits in the reserved `custom_data_keys` list alongside `comment` and
`documentation`). -/
theorem C3_metadata_skip_eval :
    (copyMetadata c3Src (Prim.newPrim "Xform")).customData
      = [("size", Val.s "1")] ∧
    (copyMetadata c3Src (Prim.newPrim "Xform")).metadata = [] :=
  ⟨rfl, rfl⟩

/-- C4: evaluation of merge-then-validate on a document whose single
prim carries `comment` metadata, merged with itself.  The merge drops
the `comment` entry (it is reserved in `copy_metadata` but no other
step copies it), so validation reports a metadata mismatch — once per
source pass — instead of the zero diagnostics the claim requires. -/
theorem C4_self_merge_validate_eval :
    mergeRun 2 c4Doc c4Doc = [("World", Prim.mk "Xform" [] [] [] [] [] [])] ∧
    validateErrors 2 c4Doc c4Doc (mergeRun 2 c4Doc c4Doc) =
      [Diag.metadataMismatch "/World" "comment" (some (Val.s "hello")) none,
       Diag.metadataMismatch "/World" "comment" (some (Val.s "hello")) none] :=
  ⟨rfl, rfl⟩

/-- C5 counterexample: sources A and B define `/X` with types `Sphere`
and `Cube`; the merged document's `/X` keeps the first source's type
(`define_node` resolves an existing node unchanged), so B's node does
not find its own type at the shared path, refuting the claim's "for
every node in A or B" quantifier. -/
theorem C5_type_counterexample :
    (alookup "X" (mergeRun 2 [("X", Prim.newPrim "Sphere")]
      [("X", Prim.newPrim "Cube")])).map Prim.typeName = some "Sphere" ∧
    ("Sphere" : String) ≠ "Cube" :=
  ⟨rfl, by decide⟩

/-- C6: after a node is merged, the destination node carries, for every
source relationship, a relationship of the same name whose target list
is exactly the source's, overwriting whatever target list an existing
destination relationship of that name had. -/
theorem C6_relationship_copy (f : Nat) (src : Prim) (odst : Option Prim)
    (hnodup : (keysOf src.rels).Nodup) (r : String × List String)
    (hr : r ∈ src.rels) :
    alookup r.1 (copyPrimF (f + 1) src odst).rels = some r.2 := by
  rw [copyPrimF_succ_rels]
  exact alookup_foldl_upsert_nodup _ _ hnodup r hr

/-- C6 witness: the scenario relationship lands on the destination with
its exact target list, replacing a previous different target list. -/
theorem C6_relationship_copy_witness :
    alookup "boundMaterial"
      (copyPrimF 1 c6Src
        (some (Prim.mk "Xform" [] [] [] [("boundMaterial", ["/Old"])] [] []))).rels
      = some ["/World/Mat1"] :=
  C6_relationship_copy 0 c6Src
    (some (Prim.mk "Xform" [] [] [] [("boundMaterial", ["/Old"])] [] []))
    (by decide) ("boundMaterial", ["/World/Mat1"]) (by decide)

/-- C7 counterexample: the composed document carries node `Extra` —
present in neither source — with one relationship, yet validation
produces no diagnostics at all: the validator's traversal only visits
source prims and never sees destination-only nodes, so no "extra
relationship" diagnostic is produced, contrary to the claim. -/
theorem C7_extra_rel_counterexample :
    (alookup "Extra" c7Comp).map (fun p => keysOf p.rels) = some ["r"] ∧
    alookup "Extra" c7A = none ∧
    validateErrors 2 c7A c7A c7Comp = [] :=
  ⟨rfl, rfl, rfl⟩

/-- C7 (amended): for a node present in exactly one source, a
destination missing one of that node's relationships yields exactly one
diagnostic naming the relationship and the node's path, and a
destination relationship absent from that source's version of the node
yields exactly one "extra relationship" diagnostic; a relationship on a
node present in neither source is never reported. -/
theorem C7_relationship_diagnostics :
    validateErrors 2 c7MissA [] c7MissComp
      = [Diag.missingRel "/N" "boundMaterial"] ∧
    validateErrors 2 [("N", c7Plain)] [] c7ExtraComp
      = [Diag.extraRel "/N" "r2"] ∧
    validateErrors 2 c7A c7A c7Comp = [] :=
  ⟨rfl, rfl, rfl⟩

/-- C8 counterexample: validating a destination whose variant set `vs`
selects `a` leaves the destination with selection `b` — the validator's
variant loop rewrites the destination's selections and leaves the last
iterated variant selected, so the destination is not unchanged. -/
theorem C8_validator_mutates_counterexample :
    ((alookup "P" (validateDst 2 c8Doc c8Doc c8Doc)).bind
      (fun p => (p.findVSet "vs").map VSet.sel)) = some "b" ∧
    ((alookup "P" c8Doc).bind
      (fun p => (p.findVSet "vs").map VSet.sel)) = some "a" ∧
    ("b" : String) ≠ "a" :=
  ⟨rfl, rfl, by decide⟩

/-- C9: the validator's outcome is 2 with no diagnostics when any of
the three documents fails to open, and otherwise 0 exactly when the
accumulated diagnostic sequence is empty and 1 exactly when it is
non-empty. -/
theorem C9_exit_codes (f : Nat) (oa ob oc : Option Doc) :
    ((∃ a b c, oa = some a ∧ ob = some b ∧ oc = some c) →
      (((validateMain f oa ob oc).1 = 0 ↔ (validateMain f oa ob oc).2 = []) ∧
       ((validateMain f oa ob oc).1 = 1 ↔ (validateMain f oa ob oc).2 ≠ []))) ∧
    ((oa = none ∨ ob = none ∨ oc = none) →
      (validateMain f oa ob oc).1 = 2 ∧ (validateMain f oa ob oc).2 = []) := by
  constructor
  · rintro ⟨a, b, c, rfl, rfl, rfl⟩
    cases he : validateErrors f a b c with
    | nil => simp [validateMain, he]
    | cons d ds => simp [validateMain, he]
  · rintro (rfl | rfl | rfl)
    · cases ob <;> cases oc <;> exact ⟨rfl, rfl⟩
    · cases oa <;> cases oc <;> exact ⟨rfl, rfl⟩
    · cases oa <;> cases ob <;> exact ⟨rfl, rfl⟩

/-- C9 witness: three empty documents validate with exit code 0; a
failed open yields exit code 2 with no diagnostics. -/
theorem C9_exit_codes_witness :
    (validateMain 1 (some ([] : Doc)) (some []) (some [])).1 = 0 ∧
    (validateMain 1 none (some ([] : Doc)) (some [])).1 = 2 := by
  constructor
  · exact ((C9_exit_codes 1 (some []) (some []) (some [])).1
      ⟨[], [], [], rfl, rfl, rfl⟩).1.mpr rfl
  · exact ((C9_exit_codes 1 none (some []) (some [])).2 (Or.inl rfl)).1

/-! ## Duplicate-freedom lemmas -/

theorem hasDupKeys_eq_false_iff {α : Type} (l : List (String × α)) :
    hasDupKeys l = false ↔ (keysOf l).Nodup := by
  induction l with
  | nil => simp [hasDupKeys, keysOf]
  | cons e rest ih =>
    rw [keysOf_cons, List.nodup_cons, hasDupKeys, Bool.or_eq_false_iff, ih]
    constructor
    · rintro ⟨h1, h2⟩
      refine ⟨?_, h2⟩
      intro hmem
      rw [← hasKey_iff_mem_keysOf] at hmem
      rw [hmem] at h1
      cases h1
    · rintro ⟨h1, h2⟩
      refine ⟨?_, h2⟩
      cases hh : hasKey e.1 rest
      · rfl
      · exact absurd ((hasKey_iff_mem_keysOf _ _).mp hh) h1

theorem hasDupStr_eq_false_iff (l : List String) :
    hasDupStr l = false ↔ l.Nodup := by
  induction l with
  | nil => simp [hasDupStr]
  | cons s rest ih =>
    rw [List.nodup_cons, hasDupStr, Bool.or_eq_false_iff, ih]
    constructor
    · rintro ⟨h1, h2⟩
      refine ⟨?_, h2⟩
      intro hmem
      have : rest.contains s = true := by simpa using hmem
      rw [this] at h1
      cases h1
    · rintro ⟨h1, h2⟩
      refine ⟨?_, h2⟩
      cases hh : rest.contains s
      · rfl
      · exact absurd (by simpa using hh) h1

theorem alookup_of_mem_nodup {α : Type} {l : List (String × α)}
    (hnd : (keysOf l).Nodup) {e : String × α} (he : e ∈ l) :
    alookup e.1 l = some e.2 := by
  induction l with
  | nil => cases he
  | cons x rest ih =>
    rw [keysOf_cons, List.nodup_cons] at hnd
    rcases List.mem_cons.mp he with h | h
    · subst h
      simp [alookup]
    · have hne : ¬ x.1 = e.1 := by
        intro hx
        exact hnd.1 (hx ▸ List.mem_map.mpr ⟨e, h, rfl⟩)
      rw [alookup, if_neg (by simp [hne])]
      exact ih hnd.2 h

/-- Split a duplicate-free association list around a member. -/
theorem split_of_mem_nodup {α : Type} {l : List (String × α)}
    (hnd : (keysOf l).Nodup) {e : String × α} (he : e ∈ l) :
    ∃ l1 l2, l = l1 ++ e :: l2 ∧ ¬ e.1 ∈ keysOf l1 ∧ ¬ e.1 ∈ keysOf l2 := by
  rcases List.append_of_mem he with ⟨l1, l2, rfl⟩
  rw [keysOf_append, keysOf_cons] at hnd
  refine ⟨l1, l2, rfl, ?_, ?_⟩
  · intro hmem
    exact List.disjoint_of_nodup_append hnd hmem (List.mem_cons_self _ _)
  · have h2 := (List.nodup_append.mp hnd).2.1
    rw [List.nodup_cons] at h2
    exact h2.1

/-- Split a list with duplicate-free name projections around a member. -/
theorem split_by_name {α : Type} (name : α → String) {l : List α}
    (hnd : (l.map name).Nodup) {x : α} (hx : x ∈ l) :
    ∃ l1 l2, l = l1 ++ x :: l2 ∧ ¬ name x ∈ l1.map name ∧
      ¬ name x ∈ l2.map name := by
  rcases List.append_of_mem hx with ⟨l1, l2, rfl⟩
  rw [List.map_append, List.map_cons] at hnd
  refine ⟨l1, l2, rfl, ?_, ?_⟩
  · intro hmem
    exact List.disjoint_of_nodup_append hnd hmem (List.mem_cons_self _ _)
  · have h2 := (List.nodup_append.mp hnd).2.1
    rw [List.nodup_cons] at h2
    exact h2.1

theorem find?_append_left {α : Type} (p : α → Bool) (l l' : List α)
    (x : α) (h : l.find? p = some x) : (l ++ l').find? p = some x := by
  induction l with
  | nil => simp [List.find?] at h
  | cons e rest ih =>
    rw [List.cons_append]
    cases he : p e with
    | true =>
      rw [List.find?_cons_of_pos _ he] at h ⊢
      exact h
    | false =>
      rw [List.find?_cons_of_neg _ (by simp [he])] at h ⊢
      exact ih h

/-- First find by name in a list with duplicate-free names. -/
theorem find?_name_of_mem_nodup {α : Type} (name : α → String)
    {l : List α} (hnd : (l.map name).Nodup) {x : α} (hx : x ∈ l) :
    l.find? (fun y => name y == name x) = some x := by
  induction l with
  | nil => cases hx
  | cons e rest ih =>
    rw [List.map_cons, List.nodup_cons] at hnd
    rcases List.mem_cons.mp hx with h | h
    · subst h
      rw [List.find?_cons_of_pos _ (by simp)]
    · have hne : ¬ (name e == name x) = true := by
        simp only [beq_iff_eq]
        intro he
        exact hnd.1 (he ▸ List.mem_map.mpr ⟨x, h, rfl⟩)
      have hne' : (name e == name x) = false := by
        cases hb : (name e == name x)
        · rfl
        · exact absurd hb hne
      rw [List.find?_cons, hne']
      exact ih hnd.2 h

theorem findVSet_of_mem_nodup {p : Prim}
    (hnd : hasDupStr (p.vsets.map VSet.name) = false) {vs : VSet}
    (hvs : vs ∈ p.vsets) : p.findVSet vs.name = some vs :=
  find?_name_of_mem_nodup VSet.name ((hasDupStr_eq_false_iff _).mp hnd) hvs

theorem findVariant_of_mem_nodup {vs : VSet}
    (hnd : hasDupStr vs.variantNames = false) {v : Variant}
    (hv : v ∈ vs.variants) : vs.findVariant v.name = some v :=
  find?_name_of_mem_nodup Variant.name ((hasDupStr_eq_false_iff _).mp hnd) hv

/-! ## Entity-preservation machinery -/

theorem wfStrongB_succ_iff (f : Nat) (p : Prim) :
    wfStrongB (f + 1) p = true ↔
      hasDupKeys p.children = false ∧
      hasDupKeys (composedChildren p) = false ∧
      hasDupStr (p.vsets.map VSet.name) = false ∧
      (∀ vs ∈ p.vsets, hasDupStr vs.variantNames = false ∧
        ∀ v ∈ vs.variants, hasDupKeys v.children = false ∧
          ∀ c ∈ v.children, wfStrongB f c.2 = true) ∧
      (∀ c ∈ p.children, wfStrongB f c.2 = true) := by
  show (_ && _ && _ && _ && _) = true ↔ _
  simp only [Bool.and_eq_true, List.all_eq_true, Bool.not_eq_true']
  tauto

theorem copyChildrenFold_cons (rec : Prim → Option Prim → Prim)
    (e : String × Prim) (L init : List (String × Prim)) :
    copyChildrenFold rec (e :: L) init =
      copyChildrenFold rec L (upsert e.1 (rec e.2 (alookup e.1 init)) init) :=
  rfl

theorem copyChildrenFold_append (rec : Prim → Option Prim → Prim)
    (L1 L2 init : List (String × Prim)) :
    copyChildrenFold rec (L1 ++ L2) init =
      copyChildrenFold rec L2 (copyChildrenFold rec L1 init) := by
  unfold copyChildrenFold
  rw [List.foldl_append]

theorem copyChildrenFold_alookup_not_mem (rec : Prim → Option Prim → Prim)
    (n : String) (L init : List (String × Prim)) (h : ¬ n ∈ keysOf L) :
    alookup n (copyChildrenFold rec L init) = alookup n init := by
  unfold copyChildrenFold
  induction L generalizing init with
  | nil => rfl
  | cons c rest ih =>
    rw [mem_keysOf_cons] at h
    push_neg at h
    rw [List.foldl_cons, ih _ h.2, alookup_upsert_ne _ _ _ _ (Ne.symm h.1)]

/-- A composed child comes from the default scope or from a selected
variant. -/
theorem mem_composedChildren {p : Prim} {c : String × Prim}
    (hc : c ∈ composedChildren p) :
    c ∈ p.children ∨ ∃ vs ∈ p.vsets, ∃ var,
      vs.findVariant vs.sel = some var ∧ c ∈ var.children := by
  unfold composedChildren at hc
  have main : ∀ (L : List VSet) (acc : List (String × Prim)),
      c ∈ L.foldl
        (fun acc vs =>
          match vs.findVariant vs.sel with
          | some var => acc ++ var.children.filter (fun x => !(hasKey x.1 acc))
          | none => acc) acc →
      c ∈ acc ∨ ∃ vs ∈ L, ∃ var,
        vs.findVariant vs.sel = some var ∧ c ∈ var.children := by
    intro L
    induction L with
    | nil => exact fun acc h => Or.inl h
    | cons vs rest ih =>
      intro acc h
      rw [List.foldl_cons] at h
      rcases ih _ h with h' | ⟨w, hw, var, hvar, hcv⟩
      · cases hv : vs.findVariant vs.sel with
        | none =>
          rw [hv] at h'
          exact Or.inl h'
        | some var =>
          rw [hv] at h'
          rcases List.mem_append.mp h' with h'' | h''
          · exact Or.inl h''
          · exact Or.inr ⟨vs, List.mem_cons_self _ _, var, hv,
              List.mem_of_mem_filter h''⟩
      · exact Or.inr ⟨w, List.mem_cons_of_mem _ hw, var, hvar, hcv⟩
  exact main p.vsets p.children hc

theorem wf_of_mem_composed {f : Nat} {p : Prim}
    (hwf : wfStrongB (f + 1) p = true) {c : String × Prim}
    (hc : c ∈ composedChildren p) : wfStrongB f c.2 = true := by
  obtain ⟨_, _, _, h4, h5⟩ := (wfStrongB_succ_iff f p).mp hwf
  rcases mem_composedChildren hc with h | ⟨vs, hvs, var, hvar, hcv⟩
  · exact h5 _ h
  · exact ((h4 vs hvs).2 var (List.mem_of_find?_eq_some hvar)).2 _ hcv

/-- A strongly well-formed prim extends itself. -/
theorem extendsB_refl (f : Nat) (p : Prim) (hwf : wfStrongB f p = true) :
    extendsB f p p = true := by
  induction f generalizing p with
  | zero => rfl
  | succ f ih =>
    obtain ⟨hch, _, hvn, hvs, hchwf⟩ := (wfStrongB_succ_iff f p).mp hwf
    show (_ && _ && _ && _ && _ && _) = true
    simp only [Bool.and_eq_true, List.all_eq_true]
    refine ⟨⟨⟨⟨⟨?_, ?_⟩, ?_⟩, ?_⟩, ?_⟩, ?_⟩
    · exact fun k hk => (hasKey_iff_mem_keysOf _ _).mpr hk
    · exact fun k hk => (hasKey_iff_mem_keysOf _ _).mpr hk
    · exact fun a ha => List.any_eq_true.mpr ⟨a, ha, by simp⟩
    · exact fun k hk => (hasKey_iff_mem_keysOf _ _).mpr hk
    · intro vs hv
      rw [findVSet_of_mem_nodup hvn hv]
      simp only [Bool.and_eq_true, List.all_eq_true]
      refine ⟨fun v hn => by simpa using hn, ?_⟩
      intro ov hov
      rw [findVariant_of_mem_nodup (hvs vs hv).1 hov]
      simp only [List.all_eq_true]
      intro oc hoc
      rw [alookup_of_mem_nodup
        ((hasDupKeys_eq_false_iff _).mp ((hvs vs hv).2 ov hov).1) hoc]
      exact ih _ (((hvs vs hv).2 ov hov).2 _ hoc)
    · intro oc hoc
      rw [alookup_of_mem_nodup ((hasDupKeys_eq_false_iff _).mp hch) hoc]
      exact ih _ (hchwf _ hoc)

/-- One pass of the recursive child-copy fold over a duplicate-free
source-children list: every entry of the initial children list is still
found by name afterwards, and the found value extends it — either it
was untouched, or it was copied over exactly once. -/
theorem copyChildrenFold_extends_lookup (f : Nat)
    (IH : ∀ s c : Prim, wfStrongB f s = true → wfStrongB f c = true →
      extendsB f c (copyPrimF f s (some c)) = true)
    (L : List (String × Prim)) (hLnd : hasDupKeys L = false)
    (hLwf : ∀ e ∈ L, wfStrongB f e.2 = true)
    (init : List (String × Prim)) (hind : hasDupKeys init = false)
    (hiwf : ∀ e ∈ init, wfStrongB f e.2 = true)
    (oc : String × Prim) (hoc : oc ∈ init) :
    ∃ nc, alookup oc.1 (copyChildrenFold (copyPrimF f) L init) = some nc ∧
      extendsB f oc.2 nc = true := by
  by_cases hk : oc.1 ∈ keysOf L
  · rcases List.mem_map.mp hk with ⟨e, heL, hename⟩
    rcases split_of_mem_nodup ((hasDupKeys_eq_false_iff L).mp hLnd) heL with
      ⟨L1, L2, hsplit, hnotin1, hnotin2⟩
    subst hsplit
    rw [copyChildrenFold_append, copyChildrenFold_cons]
    have hX : alookup e.1 (copyChildrenFold (copyPrimF f) L1 init)
        = some oc.2 := by
      rw [copyChildrenFold_alookup_not_mem _ _ _ _ hnotin1, hename]
      exact alookup_of_mem_nodup ((hasDupKeys_eq_false_iff init).mp hind) hoc
    rw [hX]
    refine ⟨copyPrimF f e.2 (some oc.2), ?_, ?_⟩
    · have hno2 : ¬ oc.1 ∈ keysOf L2 := hename ▸ hnotin2
      rw [copyChildrenFold_alookup_not_mem _ _ _ _ hno2, ← hename,
        alookup_upsert_self]
    · exact IH e.2 oc.2
        (hLwf e (List.mem_append_right _ (List.mem_cons_self _ _)))
        (hiwf oc hoc)
  · refine ⟨oc.2, ?_, ?_⟩
    · rw [copyChildrenFold_alookup_not_mem _ _ _ _ hk]
      exact alookup_of_mem_nodup ((hasDupKeys_eq_false_iff init).mp hind) hoc
    · exact extendsB_refl f oc.2 (hiwf oc hoc)

/-- `copy_metadata` never removes a metadata or custom-data key. -/
theorem copyMetadata_keys_mono (src d : Prim) :
    (∀ k, k ∈ keysOf d.metadata → k ∈ keysOf (copyMetadata src d).metadata) ∧
    (∀ k, k ∈ keysOf d.customData →
      k ∈ keysOf (copyMetadata src d).customData) := by
  unfold copyMetadata
  dsimp only
  refine foldl_rel
    (fun x y : Prim =>
      (∀ k, k ∈ keysOf x.metadata → k ∈ keysOf y.metadata) ∧
      (∀ k, k ∈ keysOf x.customData → k ∈ keysOf y.customData))
    ?_ _ ?_ _ _ ⟨fun _ h => h, fun _ h => h⟩
  · rintro a b c ⟨h1, h2⟩ ⟨g1, g2⟩
    exact ⟨fun k hk => g1 k (h1 k hk), fun k hk => g2 k (h2 k hk)⟩
  · intro x kv
    dsimp only
    split
    · exact ⟨fun _ h => h, fun _ h => h⟩
    · split
      · split
        · refine foldl_rel
            (fun x y : Prim =>
              (∀ k, k ∈ keysOf x.metadata → k ∈ keysOf y.metadata) ∧
              (∀ k, k ∈ keysOf x.customData → k ∈ keysOf y.customData))
            ?_ _ ?_ _ _ ⟨fun _ h => h, fun _ h => h⟩
          · rintro a b c ⟨h1, h2⟩ ⟨g1, g2⟩
            exact ⟨fun k hk => g1 k (h1 k hk), fun k hk => g2 k (h2 k hk)⟩
          · intro y ev
            dsimp only
            split
            · exact ⟨fun _ h => h, fun _ h => h⟩
            · exact ⟨fun _ h => h,
                fun k hk => mem_keysOf_upsert_of_mem _ _ _ _ hk⟩
        · exact ⟨fun _ h => h, fun _ h => h⟩
      · split
        · exact ⟨fun k hk => mem_keysOf_upsert_of_mem _ _ _ _ hk,
            fun _ h => h⟩
        · exact ⟨fun _ h => h,
            fun k hk => mem_keysOf_upsert_of_mem _ _ _ _ hk⟩

/-- `CreateAttribute`-or-replace keeps every attribute name findable. -/
theorem upsertAttr_any_mono (a' : Attrib) (l : List Attrib) (n : String)
    (h : l.any (fun b => b.name == n) = true) :
    (upsertAttr a' l).any (fun b => b.name == n) = true := by
  rcases List.any_eq_true.mp h with ⟨c, hc, hcn⟩
  unfold upsertAttr
  split
  · apply List.any_eq_true.mpr
    by_cases hca : c.name = a'.name
    · refine ⟨a', List.mem_map.mpr ⟨c, hc, by simp [hca]⟩, ?_⟩
      simp only [beq_iff_eq] at hcn ⊢
      rw [← hca]
      exact hcn
    · exact ⟨c, List.mem_map.mpr ⟨c, hc, by simp [hca]⟩, hcn⟩
  · exact List.any_eq_true.mpr ⟨c, List.mem_append_left _ hc, hcn⟩

/-- `copy_attributes` never removes an attribute name. -/
theorem copyAttributes_names_mono (src d : Prim) (n : String)
    (h : d.attrs.any (fun b => b.name == n) = true) :
    (copyAttributes src d).attrs.any (fun b => b.name == n) = true := by
  unfold copyAttributes
  refine foldl_rel
    (fun x y : Prim => x.attrs.any (fun b => b.name == n) = true →
      y.attrs.any (fun b => b.name == n) = true)
    (fun a b c h1 h2 hh => h2 (h1 hh)) _ ?_ _ _ (fun hh => hh) h
  intro x a
  dsimp only
  split
  · exact fun hh => hh
  · split
    · exact fun hh => hh
    · exact fun hh => upsertAttr_any_mono _ _ _ hh

/-- A fold of upserts never removes a key. -/
theorem mem_keys_upsert_fold_mono {α : Type} (l : List (String × α))
    (init : List (String × α)) (n : String) (h : n ∈ keysOf init) :
    n ∈ keysOf (l.foldl (fun acc e => upsert e.1 e.2 acc) init) := by
  induction l generalizing init with
  | nil => exact h
  | cons e rest ih =>
    rw [List.foldl_cons]
    exact ih _ (mem_keysOf_upsert_of_mem _ _ _ _ h)

/-- The name of a found variant set is the name it was looked up by. -/
theorem name_of_findVSet {p : Prim} {n : String} {vs : VSet}
    (h : p.findVSet n = some vs) : vs.name = n := by
  have := List.find?_some h
  simpa using this

theorem name_of_findVariant {vs : VSet} {n : String} {v : Variant}
    (h : vs.findVariant n = some v) : v.name = n := by
  have := List.find?_some h
  simpa using this

theorem find?_append_right {α : Type} (p : α → Bool) (l l' : List α)
    (h : l.find? p = none) : (l ++ l').find? p = l'.find? p := by
  induction l with
  | nil => rfl
  | cons e rest ih =>
    rw [List.find?_cons] at h
    cases he : p e with
    | true => rw [he] at h; cases h
    | false =>
      rw [he] at h
      rw [List.cons_append, List.find?_cons, he]
      exact ih h

theorem find?_map_name_pres (g : Variant → Variant)
    (hg : ∀ v, (g v).name = v.name) (l : List Variant) (n : String) :
    (l.map g).find? (fun w => w.name == n) =
      (l.find? (fun w => w.name == n)).map g := by
  induction l with
  | nil => rfl
  | cons e rest ih =>
    rw [List.map_cons, List.find?_cons, List.find?_cons, hg]
    cases he : (e.name == n) with
    | true => rfl
    | false => exact ih

/-- Replacing entries named like `vs` leaves the first entry of that
name equal to `vs`. -/
theorem find?_map_replace (l : List VSet) (vs : VSet)
    (h : l.any (fun w => w.name == vs.name) = true) :
    (l.map (fun w => if w.name == vs.name then vs else w)).find?
      (fun w => w.name == vs.name) = some vs := by
  induction l with
  | nil => cases h
  | cons e rest ih =>
    by_cases he : e.name = vs.name
    · rw [List.map_cons, if_pos (by simp [he]),
        List.find?_cons_of_pos _ (by simp)]
    · rw [List.map_cons, if_neg (by simp [he]), List.find?_cons]
      have hne : (e.name == vs.name) = false := by simp [he]
      rw [hne]
      apply ih
      rcases List.any_eq_true.mp h with ⟨w, hw, hwn⟩
      rcases List.mem_cons.mp hw with h' | h'
      · subst h'
        exact absurd (by simpa using hwn) he
      · exact List.any_eq_true.mpr ⟨w, h', hwn⟩

theorem find?_map_replace_ne (l : List VSet) (vs : VSet) (n : String)
    (hne : n ≠ vs.name) :
    (l.map (fun w => if w.name == vs.name then vs else w)).find?
      (fun w => w.name == n) = l.find? (fun w => w.name == n) := by
  induction l with
  | nil => rfl
  | cons e rest ih =>
    by_cases he : e.name = vs.name
    · rw [List.map_cons, if_pos (by simp [he]), List.find?_cons,
        List.find?_cons]
      have h1 : (vs.name == n) = false := by simp [Ne.symm hne]
      have h2 : (e.name == n) = false := by simp [he, Ne.symm hne]
      rw [h1, h2]
      exact ih
    · rw [List.map_cons, if_neg (by simp [he]), List.find?_cons,
        List.find?_cons]
      cases hen : (e.name == n) with
      | true => rfl
      | false => exact ih

theorem findVSet_setVSet_self (p : Prim) (vs : VSet) :
    (p.setVSet vs).findVSet vs.name = some vs := by
  unfold Prim.setVSet
  split
  · rename_i hany
    show (p.vsets.map (fun w => if w.name == vs.name then vs else w)).find?
      (fun w => w.name == vs.name) = some vs
    exact find?_map_replace p.vsets vs hany
  · rename_i hany
    show (p.vsets ++ [vs]).find? (fun w => w.name == vs.name) = some vs
    rw [find?_append_right _ _ _ (List.find?_eq_none.mpr (fun x hx hpx => by
      exact hany (List.any_eq_true.mpr ⟨x, hx, hpx⟩)))]
    rw [List.find?_cons_of_pos _ (by simp)]

theorem findVSet_setVSet_ne (p : Prim) (vs : VSet) (n : String)
    (hne : n ≠ vs.name) : (p.setVSet vs).findVSet n = p.findVSet n := by
  unfold Prim.setVSet
  split
  · show (p.vsets.map (fun w => if w.name == vs.name then vs else w)).find?
      (fun w => w.name == n) = p.findVSet n
    rw [find?_map_replace_ne _ _ _ hne]
    rfl
  · show (p.vsets ++ [vs]).find? (fun w => w.name == n) = p.findVSet n
    cases hf : p.vsets.find? (fun w => w.name == n) with
    | some w =>
      rw [find?_append_left _ _ _ _ hf]
      unfold Prim.findVSet
      exact hf.symm
    | none =>
      rw [find?_append_right _ _ _ hf,
        List.find?_cons_of_neg _ (by simp [Ne.symm hne])]
      show (none : Option VSet) = p.findVSet n
      unfold Prim.findVSet
      exact hf.symm

theorem name_withVariants (vs : VSet) (l : List Variant) :
    (vs.withVariants l).name = vs.name := rfl

theorem name_withSel (vs : VSet) (s : String) :
    (vs.withSel s).name = vs.name := rfl

theorem variants_withVariants (vs : VSet) (l : List Variant) :
    (vs.withVariants l).variants = l := rfl

/-- The ensure-variants fold keeps the set's name and selection and
only appends new (empty) variants. -/
theorem addVariants_shape (L : List String) (dvs : VSet) :
    ∃ added, (L.foldl
      (fun dvs v =>
        if v ∈ dvs.variantNames then dvs
        else dvs.withVariants (dvs.variants ++ [Variant.mk v []])) dvs)
      = VSet.mk dvs.name (dvs.variants ++ added) dvs.sel := by
  induction L generalizing dvs with
  | nil =>
    refine ⟨[], ?_⟩
    cases dvs
    simp [VSet.name, VSet.variants, VSet.sel]
  | cons v rest ih =>
    rw [List.foldl_cons]
    by_cases hv : v ∈ dvs.variantNames
    · rw [if_pos hv]
      exact ih dvs
    · rw [if_neg hv]
      rcases ih (dvs.withVariants (dvs.variants ++ [Variant.mk v []])) with
        ⟨added, ha⟩
      refine ⟨[Variant.mk v []] ++ added, ?_⟩
      rw [ha]
      cases dvs
      simp [VSet.withVariants, VSet.name, VSet.variants, VSet.sel]

/-- One variant-set copy step is a named `setVSet` write for the source
set's name. -/
theorem copyVariantSetsStep_is_setVSet (rec : Prim → Option Prim → Prim)
    (src d : Prim) (svs : VSet) :
    ∃ dvs : VSet, dvs.name = svs.name ∧
      copyVariantSetsStep rec src d svs = d.setVSet dvs := by
  have h0 : ((d.findVSet svs.name).getD (VSet.mk svs.name [] "")).name
      = svs.name := by
    cases hf : d.findVSet svs.name with
    | none => rfl
    | some w => exact name_of_findVSet hf
  unfold copyVariantSetsStep
  dsimp only
  refine ⟨_, ?_, rfl⟩
  rcases addVariants_shape svs.variantNames
    ((d.findVSet svs.name).getD (VSet.mk svs.name [] "")) with ⟨added, ha⟩
  rw [ha]
  by_cases hsel : (svs.sel != "") = true
  · simp only [if_pos hsel]
    split
    · rw [name_withVariants, name_withSel]
      exact h0
    · rw [name_withSel]
      exact h0
  · have hf : (svs.sel != "") = false := by
      cases hb : (svs.sel != "")
      · rfl
      · exact absurd hb hsel
    simp only [if_neg hsel, hf, Bool.false_and, Bool.false_eq_true, if_false]
    exact h0

theorem copyVariantSetsStep_findVSet_ne (rec : Prim → Option Prim → Prim)
    (src x : Prim) (svs : VSet) (n : String) (hne : n ≠ svs.name) :
    (copyVariantSetsStep rec src x svs).findVSet n = x.findVSet n := by
  rcases copyVariantSetsStep_is_setVSet rec src x svs with ⟨dvs, hname, heq⟩
  rw [heq, findVSet_setVSet_ne _ _ _ (fun h => hne (h.trans hname))]

/-- Variant sets not named by the source are untouched by the copy
fold. -/
theorem vsetsFold_findVSet_not_mem (rec : Prim → Option Prim → Prim)
    (src : Prim) (L : List VSet) (x : Prim) (n : String)
    (h : ¬ n ∈ L.map VSet.name) :
    (L.foldl (copyVariantSetsStep rec src) x).findVSet n = x.findVSet n := by
  induction L generalizing x with
  | nil => rfl
  | cons svs rest ih =>
    rw [List.map_cons, List.mem_cons] at h
    push_neg at h
    rw [List.foldl_cons, ih _ h.2]
    exact copyVariantSetsStep_findVSet_ne rec src x svs n h.1

/-- One variant-set copy step, when the destination already has the
set: it is replaced, by name, with a set whose variants are the old
ones followed by newly added empty ones, each mapped by a
name-preserving function that either leaves the variant alone or
copies the composed source children over its children. -/
theorem copyVariantSetsStep_found (rec : Prim → Option Prim → Prim)
    (src d : Prim) (svs ovs : VSet)
    (hfound : d.findVSet svs.name = some ovs) :
    ∃ (added : List Variant) (g : Variant → Variant) (newsel : String),
      (∀ v, (g v).name = v.name) ∧
      (∀ v : Variant, g v = v ∨
        g v = v.withChildren
          (copyChildrenFold rec (composedChildren src) v.children)) ∧
      copyVariantSetsStep rec src d svs =
        d.setVSet (VSet.mk svs.name ((ovs.variants ++ added).map g) newsel) := by
  have hon : ovs.name = svs.name := name_of_findVSet hfound
  unfold copyVariantSetsStep
  dsimp only
  rw [hfound, Option.getD_some]
  rcases addVariants_shape svs.variantNames ovs with ⟨added, ha⟩
  rw [ha, hon]
  by_cases hsel : (svs.sel != "") = true
  · simp only [if_pos hsel]
    dsimp only [VSet.withSel, VSet.withVariants, VSet.name, VSet.variants,
      VSet.sel]
    split
    · refine ⟨added,
        (fun w => if (w.name == svs.sel) = true then
          w.withChildren (copyChildrenFold rec (composedChildren src)
            w.children)
          else w), svs.sel, ?_, ?_, ?_⟩
      · intro v
        dsimp only
        split <;> rfl
      · intro v
        dsimp only
        split
        · exact Or.inr rfl
        · exact Or.inl rfl
      · rfl
    · refine ⟨added, id, svs.sel, fun v => rfl, fun v => Or.inl rfl, ?_⟩
      rw [List.map_id]
      exact rfl
  · have hf : (svs.sel != "") = false := by
      cases hb : (svs.sel != "")
      · rfl
      · exact absurd hb hsel
    simp only [if_neg hsel, hf, Bool.false_and, Bool.false_eq_true, if_false]
    refine ⟨added, id, ovs.sel, fun v => rfl, fun v => Or.inl rfl, ?_⟩
    rw [List.map_id]

/-- The variant-set copy: every variant set already on the destination
is still found by name afterwards, its variant names survive, and every
variant's children are found by name with values extending the old
ones. -/
theorem copyVariantSets_extends (f : Nat)
    (IH : ∀ s c : Prim, wfStrongB f s = true → wfStrongB f c = true →
      extendsB f c (copyPrimF f s (some c)) = true)
    (src x0 : Prim) (hsrc : wfStrongB (f + 1) src = true)
    (hxnd : hasDupStr (x0.vsets.map VSet.name) = false)
    (hxvs : ∀ vs ∈ x0.vsets, hasDupStr vs.variantNames = false ∧
      ∀ v ∈ vs.variants, hasDupKeys v.children = false ∧
        ∀ c ∈ v.children, wfStrongB f c.2 = true)
    (ovs : VSet) (hovs : ovs ∈ x0.vsets) :
    ∃ nvs, (copyVariantSets (copyPrimF f) src x0).findVSet ovs.name
        = some nvs ∧
      (∀ v ∈ ovs.variantNames, v ∈ nvs.variantNames) ∧
      (∀ ov ∈ ovs.variants, ∃ nv, nvs.findVariant ov.name = some nv ∧
        ∀ oc ∈ ov.children, ∃ nc, alookup oc.1 nv.children = some nc ∧
          extendsB f oc.2 nc = true) := by
  obtain ⟨_, hscc, hsvn, _, _⟩ := (wfStrongB_succ_iff f src).mp hsrc
  have hx0find : x0.findVSet ovs.name = some ovs :=
    findVSet_of_mem_nodup hxnd hovs
  unfold copyVariantSets
  by_cases hmem : ovs.name ∈ src.vsets.map VSet.name
  · rcases List.mem_map.mp hmem with ⟨svs, hsvs, hsname⟩
    rcases split_by_name VSet.name ((hasDupStr_eq_false_iff _).mp hsvn) hsvs
      with ⟨S1, S2, hsplit, hn1, hn2⟩
    rw [hsplit, List.foldl_append, List.foldl_cons]
    have hX1 : (S1.foldl (copyVariantSetsStep (copyPrimF f) src) x0).findVSet
        svs.name = some ovs := by
      rw [show svs.name = ovs.name from hsname,
        vsetsFold_findVSet_not_mem _ _ _ _ _ (hsname ▸ hn1)]
      exact hx0find
    rcases copyVariantSetsStep_found (copyPrimF f) src _ svs ovs hX1 with
      ⟨added, g, newsel, hgname, hgor, heq⟩
    rw [heq]
    refine ⟨VSet.mk svs.name ((ovs.variants ++ added).map g) newsel, ?_, ?_, ?_⟩
    · rw [vsetsFold_findVSet_not_mem _ _ _ _ _ (hsname ▸ hn2)]
      rw [show ovs.name = svs.name from hsname.symm]
      have := findVSet_setVSet_self
        (S1.foldl (copyVariantSetsStep (copyPrimF f) src) x0)
        (VSet.mk svs.name ((ovs.variants ++ added).map g) newsel)
      exact this
    · intro v hv
      show v ∈ (((ovs.variants ++ added).map g).map Variant.name)
      have hnames : ((ovs.variants ++ added).map g).map Variant.name
          = (ovs.variants ++ added).map Variant.name := by
        rw [List.map_map]
        exact List.map_congr_left (fun w _ => hgname w)
      rw [hnames, List.map_append]
      exact List.mem_append_left _ hv
    · intro ov hov
      have hfindv : (VSet.mk svs.name ((ovs.variants ++ added).map g)
          newsel).findVariant ov.name = some (g ov) := by
        show (((ovs.variants ++ added).map g).find?
          (fun w => w.name == ov.name)) = some (g ov)
        rw [find?_map_name_pres g hgname]
        rw [find?_append_left _ _ _ ov
          (find?_name_of_mem_nodup Variant.name
            ((hasDupStr_eq_false_iff _).mp (hxvs ovs hovs).1) hov)]
        rfl
      refine ⟨g ov, hfindv, ?_⟩
      intro oc hoc
      have hnd_ov := ((hxvs ovs hovs).2 ov hov).1
      have hwf_ov := ((hxvs ovs hovs).2 ov hov).2
      rcases hgor ov with hid | hcopy
      · rw [hid]
        exact ⟨oc.2,
          alookup_of_mem_nodup ((hasDupKeys_eq_false_iff _).mp hnd_ov) hoc,
          extendsB_refl f _ (hwf_ov _ hoc)⟩
      · rw [hcopy]
        exact copyChildrenFold_extends_lookup f IH (composedChildren src)
          hscc (fun e he => wf_of_mem_composed hsrc he) ov.children hnd_ov
          hwf_ov oc hoc
  · rw [vsetsFold_findVSet_not_mem _ _ _ _ _ hmem, hx0find]
    refine ⟨ovs, rfl, fun v hv => hv, ?_⟩
    intro ov hov
    refine ⟨ov,
      findVariant_of_mem_nodup (hxvs ovs hovs).1 hov, ?_⟩
    intro oc hoc
    exact ⟨oc.2,
      alookup_of_mem_nodup
        ((hasDupKeys_eq_false_iff _).mp ((hxvs ovs hovs).2 ov hov).1) hoc,
      extendsB_refl f _ (((hxvs ovs hovs).2 ov hov).2 _ hoc)⟩

/-- The recursive prim copy onto an existing destination preserves
every named entity of the destination, to the copy's depth. -/
theorem mergePrim_extends (f : Nat) (src d : Prim)
    (hsrc : wfStrongB f src = true) (hd : wfStrongB f d = true) :
    extendsB f d (copyPrimF f src (some d)) = true := by
  induction f generalizing src d with
  | zero => rfl
  | succ f ih =>
    obtain ⟨hd_ch, _, hd_vn, hd_vs, hd_chwf⟩ := (wfStrongB_succ_iff f d).mp hd
    obtain ⟨_, hs_cc, _, _, _⟩ := (wfStrongB_succ_iff f src).mp hsrc
    have hmd : (copyPrimF (f + 1) src (some d)).metadata
        = (copyMetadata src d).metadata := by
      show (copyVariantSets (copyPrimF f) src (copyRelationships src
        (copyAttributes src (copyMetadata src d)))).metadata = _
      rw [(copyVariantSets_fields _ src _).2.1,
        (copyRelationships_fields src _).2.1,
        (copyAttributes_fields src _).2.1]
    have hcd : (copyPrimF (f + 1) src (some d)).customData
        = (copyMetadata src d).customData := by
      show (copyVariantSets (copyPrimF f) src (copyRelationships src
        (copyAttributes src (copyMetadata src d)))).customData = _
      rw [(copyVariantSets_fields _ src _).2.2.1,
        (copyRelationships_fields src _).2.2.1,
        (copyAttributes_fields src _).2.2.1]
    have hat : (copyPrimF (f + 1) src (some d)).attrs
        = (copyAttributes src (copyMetadata src d)).attrs := by
      show (copyVariantSets (copyPrimF f) src (copyRelationships src
        (copyAttributes src (copyMetadata src d)))).attrs = _
      rw [(copyVariantSets_fields _ src _).2.2.2.1,
        (copyRelationships_fields src _).2.2.2.1]
    have hx0vs : (copyRelationships src (copyAttributes src
        (copyMetadata src d))).vsets = d.vsets := by
      rw [(copyRelationships_fields src _).2.2.2.2.1,
        (copyAttributes_fields src _).2.2.2.2.1,
        (copyMetadata_fields src d).2.2.2.1]
    show (_ && _ && _ && _ && _ && _) = true
    simp only [Bool.and_eq_true, List.all_eq_true]
    refine ⟨⟨⟨⟨⟨?_, ?_⟩, ?_⟩, ?_⟩, ?_⟩, ?_⟩
    · intro k hk
      rw [hasKey_iff_mem_keysOf, hmd]
      exact (copyMetadata_keys_mono src d).1 k hk
    · intro k hk
      rw [hasKey_iff_mem_keysOf, hcd]
      exact (copyMetadata_keys_mono src d).2 k hk
    · intro a haa
      rw [hat]
      apply copyAttributes_names_mono
      rw [(copyMetadata_fields src d).2.1]
      exact List.any_eq_true.mpr ⟨a, haa, by simp⟩
    · intro k hk
      rw [hasKey_iff_mem_keysOf, copyPrimF_succ_rels]
      exact mem_keys_upsert_fold_mono _ _ _ hk
    · intro ovs hovs
      rcases copyVariantSets_extends f ih src
        (copyRelationships src (copyAttributes src (copyMetadata src d)))
        hsrc (by rw [hx0vs]; exact hd_vn) (by rw [hx0vs]; exact hd_vs)
        ovs (by rw [hx0vs]; exact hovs) with ⟨nvs, hfind, hnames, hvars⟩
      have hfind' : (copyPrimF (f + 1) src (some d)).findVSet ovs.name
          = some nvs := by
        show (copyVariantSets (copyPrimF f) src (copyRelationships src
          (copyAttributes src (copyMetadata src d)))).findVSet ovs.name
          = some nvs
        exact hfind
      rw [hfind']
      simp only [Bool.and_eq_true, List.all_eq_true]
      constructor
      · intro v hv
        simpa using hnames v hv
      · intro ov hov
        rcases hvars ov hov with ⟨nv, hnv, hch⟩
        rw [hnv]
        simp only [List.all_eq_true]
        intro oc hoc
        rcases hch oc hoc with ⟨nc, hnc, hext⟩
        rw [hnc]
        exact hext
    · intro oc hoc
      have hch : (copyPrimF (f + 1) src (some d)).children
          = copyChildrenFold (copyPrimF f) (composedChildren src)
            d.children := by
        rw [copyPrimF_succ_children]
      rw [hch]
      rcases copyChildrenFold_extends_lookup f ih (composedChildren src)
        hs_cc (fun e he => wf_of_mem_composed hsrc he) d.children hd_ch
        hd_chwf oc hoc with ⟨nc, hnc, hext⟩
      rw [hnc]
      exact hext

/-- C10: a merge pass onto an existing destination document is purely
additive: every node path, attribute name, relationship name,
variant-set name, variant name, metadata key and custom-data key that
exists on the destination before the pass — in default as well as
variant scope, at every depth — still exists afterwards (values, target
lists and selections may have been overwritten). -/
theorem C10_merge_additive (f : Nat) (src out : Doc)
    (hsrc_nd : hasDupKeys src = false)
    (hsrc_wf : ∀ e ∈ src, wfStrongB f e.2 = true)
    (hout_nd : hasDupKeys out = false)
    (hout_wf : ∀ e ∈ out, wfStrongB f e.2 = true) :
    extendsDocB f out (mergeFile f src out) = true := by
  unfold extendsDocB
  simp only [List.all_eq_true]
  intro oc hoc
  have hmf : mergeFile f src out = copyChildrenFold (copyPrimF f) src out :=
    rfl
  rw [hmf]
  rcases copyChildrenFold_extends_lookup f
    (fun s c hs hc => mergePrim_extends f s c hs hc) src hsrc_nd hsrc_wf
    out hout_nd hout_wf oc hoc with ⟨nc, h1, h2⟩
  rw [h1]
  exact h2

/-- C10 witness: merging a source document onto a destination that
already carries a node with a relationship, a variant set and metadata
keeps every pre-existing entity findable. -/
theorem C10_merge_additive_witness :
    extendsDocB 3 (c8Doc ++ c7MissA)
      (mergeFile 3 [("P", c1Src)] (c8Doc ++ c7MissA)) = true :=
  C10_merge_additive 3 [("P", c1Src)] (c8Doc ++ c7MissA) (by decide)
    (by decide) (by decide) (by decide)

/-! ## Path descent and type machinery -/

theorem alookup_eq_some_mem {α : Type} {n : String} {l : List (String × α)}
    {v : α} (h : alookup n l = some v) : (n, v) ∈ l := by
  induction l with
  | nil => cases h
  | cons e rest ih =>
    by_cases he : e.1 = n
    · rw [alookup, if_pos (by simp [he])] at h
      cases h
      have hpair : (n, e.2) = e := by rw [← he]
      exact hpair ▸ List.mem_cons_self _ _
    · rw [alookup, if_neg (by simp [he])] at h
      exact List.mem_cons_of_mem _ (ih h)

theorem alookup_eq_none_iff {α : Type} (n : String)
    (l : List (String × α)) : alookup n l = none ↔ ¬ n ∈ keysOf l := by
  rw [← alookup_isSome_iff_mem_keysOf]
  cases alookup n l <;> simp

theorem wfPrimB_succ_iff (f : Nat) (p : Prim) :
    wfPrimB (f + 1) p = true ↔
      hasDupKeys (composedChildren p) = false ∧
      ∀ c ∈ composedChildren p, wfPrimB f c.2 = true := by
  show (_ && _) = true ↔ _
  simp only [Bool.and_eq_true, List.all_eq_true, Bool.not_eq_true']

/-- The value a split-off fold leaves under a key that occurs exactly
once in the source-children list. -/
theorem copyChildrenFold_alookup_split (rec : Prim → Option Prim → Prim)
    (L : List (String × Prim)) (hnd : hasDupKeys L = false) (n : String)
    (c : Prim) (hmem : (n, c) ∈ L) (init : List (String × Prim)) :
    alookup n (copyChildrenFold rec L init) =
      some (rec c (alookup n init)) := by
  rcases split_of_mem_nodup ((hasDupKeys_eq_false_iff L).mp hnd) hmem with
    ⟨L1, L2, hsplit, h1, h2⟩
  subst hsplit
  rw [copyChildrenFold_append, copyChildrenFold_cons]
  dsimp only
  rw [copyChildrenFold_alookup_not_mem _ _ _ _ h2, alookup_upsert_self,
    copyChildrenFold_alookup_not_mem _ _ _ _ h1]

/-- The prim copy realizes every composed source path in the
destination's default scope, typed by the pre-existing destination node
when the default chain finds one and by the source's type (or the
`Xform` default) otherwise. -/
theorem copyPrim_descend_type (f : Nat) (src : Prim) (odst : Option Prim)
    (path : List String) (p : Prim) (hwf : wfPrimB f src = true)
    (hdesc : descend f src path = some p) :
    ∃ q, descendDefault f (copyPrimF (f + 1) src odst) path = some q ∧
      q.typeName = (match odst.bind (fun d => descendDefault f d path) with
        | some ex => ex.typeName
        | none => orXform p.typeName) := by
  induction f generalizing src odst path p with
  | zero =>
    cases path with
    | nil =>
      have hp : p = src := by
        have hs : some src = some p := hdesc
        exact (Option.some.inj hs).symm
      refine ⟨copyPrimF (0 + 1) src odst, rfl, ?_⟩
      rw [copyPrimF_succ_typeName, hp]
      cases odst with
      | none => rfl
      | some d => rfl
    | cons n rest => cases hdesc
  | succ f ih =>
    cases path with
    | nil =>
      have hp : p = src := by
        have hs : some src = some p := hdesc
        exact (Option.some.inj hs).symm
      refine ⟨copyPrimF (f + 1 + 1) src odst, rfl, ?_⟩
      rw [copyPrimF_succ_typeName, hp]
      cases odst with
      | none => rfl
      | some d => rfl
    | cons n rest =>
      have hdesc' : (getComposedChild src n).bind
          (fun c => descend f c rest) = some p := hdesc
      rcases Option.bind_eq_some.mp hdesc' with ⟨c, hc, hrest⟩
      obtain ⟨hnd, hwfc⟩ := (wfPrimB_succ_iff f src).mp hwf
      have hcmem : (n, c) ∈ composedChildren src := alookup_eq_some_mem hc
      cases odst with
      | none =>
        have hlook : alookup n (copyPrimF (f + 1 + 1) src none).children
            = some (copyPrimF (f + 1) c
              (alookup n ([] : List (String × Prim)))) := by
          rw [copyPrimF_succ_children]
          exact copyChildrenFold_alookup_split _ _ hnd n c hcmem _
        rcases ih c (alookup n ([] : List (String × Prim))) rest p
          (hwfc _ hcmem) hrest with ⟨q, hq, hqt⟩
        refine ⟨q, ?_, ?_⟩
        · show (alookup n (copyPrimF (f + 1 + 1) src none).children).bind
            (fun x => descendDefault f x rest) = some q
          rw [hlook]
          exact hq
        · rw [hqt]
          rfl
      | some d =>
        have hlook : alookup n (copyPrimF (f + 1 + 1) src (some d)).children
            = some (copyPrimF (f + 1) c (alookup n d.children)) := by
          rw [copyPrimF_succ_children]
          exact copyChildrenFold_alookup_split _ _ hnd n c hcmem _
        rcases ih c (alookup n d.children) rest p (hwfc _ hcmem) hrest with
          ⟨q, hq, hqt⟩
        refine ⟨q, ?_, ?_⟩
        · show (alookup n (copyPrimF (f + 1 + 1) src (some d)).children).bind
            (fun x => descendDefault f x rest) = some q
          rw [hlook]
          exact hq
        · rw [hqt]
          rfl

/-- The prim copy preserves every default-scope path of the existing
destination, with its node's type unchanged. -/
theorem copyPrim_preserves_default (f : Nat) (src d : Prim)
    (path : List String) (q0 : Prim) (hwf : wfPrimB f src = true)
    (hdesc : descendDefault f d path = some q0) :
    ∃ q1, descendDefault f (copyPrimF (f + 1) src (some d)) path
        = some q1 ∧ q1.typeName = q0.typeName := by
  induction f generalizing src d path q0 with
  | zero =>
    cases path with
    | nil =>
      have hq : q0 = d := by
        have hs : some d = some q0 := hdesc
        exact (Option.some.inj hs).symm
      refine ⟨copyPrimF (0 + 1) src (some d), rfl, ?_⟩
      rw [copyPrimF_succ_typeName, hq]
    | cons n rest => cases hdesc
  | succ f ih =>
    cases path with
    | nil =>
      have hq : q0 = d := by
        have hs : some d = some q0 := hdesc
        exact (Option.some.inj hs).symm
      refine ⟨copyPrimF (f + 1 + 1) src (some d), rfl, ?_⟩
      rw [copyPrimF_succ_typeName, hq]
    | cons n rest =>
      have hdesc' : (alookup n d.children).bind
          (fun c => descendDefault f c rest) = some q0 := hdesc
      rcases Option.bind_eq_some.mp hdesc' with ⟨c0, hc0, hrest⟩
      obtain ⟨hnd, hwfc⟩ := (wfPrimB_succ_iff f src).mp hwf
      by_cases hk : n ∈ keysOf (composedChildren src)
      · rcases Option.isSome_iff_exists.mp
          ((alookup_isSome_iff_mem_keysOf n _).mpr hk) with ⟨c, hcl⟩
        have hcmem : (n, c) ∈ composedChildren src := alookup_eq_some_mem hcl
        have hlook : alookup n (copyPrimF (f + 1 + 1) src (some d)).children
            = some (copyPrimF (f + 1) c (alookup n d.children)) := by
          rw [copyPrimF_succ_children]
          exact copyChildrenFold_alookup_split _ _ hnd n c hcmem _
        rw [hc0] at hlook
        rcases ih c c0 rest q0 (hwfc _ hcmem) hrest with ⟨q1, hq1, hq1t⟩
        refine ⟨q1, ?_, hq1t⟩
        show (alookup n (copyPrimF (f + 1 + 1) src (some d)).children).bind
          (fun x => descendDefault f x rest) = some q1
        rw [hlook]
        exact hq1
      · have hlook : alookup n (copyPrimF (f + 1 + 1) src (some d)).children
            = alookup n d.children := by
          rw [copyPrimF_succ_children]
          exact copyChildrenFold_alookup_not_mem _ _ _ _ hk
        refine ⟨q0, ?_, rfl⟩
        show (alookup n (copyPrimF (f + 1 + 1) src (some d)).children).bind
          (fun x => descendDefault f x rest) = some q0
        rw [hlook, hc0]
        exact hrest

/-- A node found by the default-scope chain is found by the composed
chain, unchanged. -/
theorem descendDefault_imp_descend (f : Nat) (x : Prim)
    (path : List String) (q : Prim)
    (h : descendDefault f x path = some q) :
    descend f x path = some q := by
  induction f generalizing x path q with
  | zero =>
    cases path with
    | nil => exact h
    | cons n rest => cases h
  | succ f ih =>
    cases path with
    | nil => exact h
    | cons n rest =>
      have h' : (alookup n x.children).bind
          (fun c => descendDefault f c rest) = some q := h
      rcases Option.bind_eq_some.mp h' with ⟨c, hc, hrest⟩
      have hkey : n ∈ keysOf x.children := by
        rw [← alookup_isSome_iff_mem_keysOf, hc]
        rfl
      show (getComposedChild x n).bind (fun c => descend f c rest) = some q
      rw [getComposedChild_of_mem_children _ _ hkey, hc]
      exact ih c rest q hrest

/-- A fresh copy's default scope realizes no path beyond the source's
composed paths. -/
theorem copyPrim_fresh_default_none (f : Nat) (src : Prim)
    (path : List String) (hwf : wfPrimB f src = true)
    (hdesc : descend f src path = none) :
    descendDefault f (copyPrimF (f + 1) src none) path = none := by
  induction f generalizing src path with
  | zero =>
    cases path with
    | nil => cases hdesc
    | cons n rest => rfl
  | succ f ih =>
    cases path with
    | nil => cases hdesc
    | cons n rest =>
      have hdesc' : (getComposedChild src n).bind
          (fun c => descend f c rest) = none := hdesc
      obtain ⟨hnd, hwfc⟩ := (wfPrimB_succ_iff f src).mp hwf
      show (alookup n (copyPrimF (f + 1 + 1) src none).children).bind
        (fun x => descendDefault f x rest) = none
      cases hg : getComposedChild src n with
      | none =>
        have hkey : ¬ n ∈ keysOf (composedChildren src) :=
          (alookup_eq_none_iff n _).mp hg
        have hlook : alookup n (copyPrimF (f + 1 + 1) src none).children
            = none := by
          rw [copyPrimF_succ_children,
            copyChildrenFold_alookup_not_mem _ _ _ _ hkey]
          rfl
        rw [hlook]
        rfl
      | some c =>
        rw [hg] at hdesc'
        have hrest : descend f c rest = none := hdesc'
        have hcmem : (n, c) ∈ composedChildren src := alookup_eq_some_mem hg
        have hlook : alookup n (copyPrimF (f + 1 + 1) src none).children
            = some (copyPrimF (f + 1) c
              (alookup n ([] : List (String × Prim)))) := by
          rw [copyPrimF_succ_children]
          exact copyChildrenFold_alookup_split _ _ hnd n c hcmem _
        rw [hlook]
        exact ih c rest (hwfc _ hcmem) hrest

/-- C5 (amended): for every composed node of source A, the merged
document has a node at the same path whose type is A's type, or the
generic `Xform` default when A's type is unset; for every composed node
of source B at a path where A has no composed node, likewise with B's
type.  (At paths populated by both sources the first source's type
wins, since resolving an already-defined destination node returns it
unchanged.) -/
theorem C5_merged_types (f : Nat) (a b : Doc) (path : List String)
    (hand : hasDupKeys a = false) (hawf : ∀ e ∈ a, wfPrimB f e.2 = true)
    (hbnd : hasDupKeys b = false) (hbwf : ∀ e ∈ b, wfPrimB f e.2 = true) :
    (∀ p, docNodeAt f a path = some p →
      ∃ q, docNodeAt f (mergeRun (f + 1) a b) path = some q ∧
        q.typeName = orXform p.typeName) ∧
    (∀ p, docNodeAt f b path = some p → docNodeAt f a path = none →
      ∃ q, docNodeAt f (mergeRun (f + 1) a b) path = some q ∧
        q.typeName = orXform p.typeName) := by
  cases path with
  | nil => exact ⟨fun p hp => (by cases hp), fun p hp _ => (by cases hp)⟩
  | cons n rest =>
    have hout : mergeRun (f + 1) a b
        = copyChildrenFold (copyPrimF (f + 1)) b
            (copyChildrenFold (copyPrimF (f + 1)) a []) := rfl
    constructor
    · intro p hp
      have hp' : (alookup n a).bind (fun x => descend f x rest) = some p := hp
      rcases Option.bind_eq_some.mp hp' with ⟨a0, ha0, hdesc⟩
      have hamem : (n, a0) ∈ a := alookup_eq_some_mem ha0
      have h1 : alookup n (copyChildrenFold (copyPrimF (f + 1)) a []) =
          some (copyPrimF (f + 1) a0 (alookup n ([] : Doc))) :=
        copyChildrenFold_alookup_split _ _ hand n a0 hamem _
      rcases copyPrim_descend_type f a0 none rest p (hawf _ hamem) hdesc with
        ⟨q, hq, hqt⟩
      have hqt' : q.typeName = orXform p.typeName := hqt
      by_cases hbk : n ∈ keysOf b
      · rcases Option.isSome_iff_exists.mp
          ((alookup_isSome_iff_mem_keysOf n b).mpr hbk) with ⟨b0, hb0⟩
        have hbmem : (n, b0) ∈ b := alookup_eq_some_mem hb0
        have h2 : alookup n (mergeRun (f + 1) a b)
            = some (copyPrimF (f + 1) b0
              (some (copyPrimF (f + 1) a0 (alookup n ([] : Doc))))) := by
          rw [hout, copyChildrenFold_alookup_split _ _ hbnd n b0 hbmem _, h1]
        rcases copyPrim_preserves_default f b0
          (copyPrimF (f + 1) a0 (alookup n ([] : Doc))) rest q
          (hbwf _ hbmem) hq with ⟨q1, hq1, hq1t⟩
        refine ⟨q1, ?_, by rw [hq1t, hqt']⟩
        show (alookup n (mergeRun (f + 1) a b)).bind
          (fun x => descend f x rest) = some q1
        rw [h2]
        exact descendDefault_imp_descend f _ rest q1 hq1
      · have h2 : alookup n (mergeRun (f + 1) a b)
            = some (copyPrimF (f + 1) a0 (alookup n ([] : Doc))) := by
          rw [hout, copyChildrenFold_alookup_not_mem _ _ _ _ hbk, h1]
        refine ⟨q, ?_, hqt'⟩
        show (alookup n (mergeRun (f + 1) a b)).bind
          (fun x => descend f x rest) = some q
        rw [h2]
        exact descendDefault_imp_descend f _ rest q hq
    · intro p hpb hpa
      have hpb' : (alookup n b).bind (fun x => descend f x rest) = some p :=
        hpb
      rcases Option.bind_eq_some.mp hpb' with ⟨b0, hb0, hdescb⟩
      have hbmem : (n, b0) ∈ b := alookup_eq_some_mem hb0
      have hpa' : (alookup n a).bind (fun x => descend f x rest) = none := hpa
      cases ha : alookup n a with
      | none =>
        have hka : ¬ n ∈ keysOf a := (alookup_eq_none_iff n a).mp ha
        have h1 : alookup n (copyChildrenFold (copyPrimF (f + 1)) a [])
            = none := by
          rw [copyChildrenFold_alookup_not_mem _ _ _ _ hka]
          rfl
        have h2 : alookup n (mergeRun (f + 1) a b)
            = some (copyPrimF (f + 1) b0 none) := by
          rw [hout, copyChildrenFold_alookup_split _ _ hbnd n b0 hbmem _, h1]
        rcases copyPrim_descend_type f b0 none rest p (hbwf _ hbmem) hdescb
          with ⟨q, hq, hqt⟩
        refine ⟨q, ?_, hqt⟩
        show (alookup n (mergeRun (f + 1) a b)).bind
          (fun x => descend f x rest) = some q
        rw [h2]
        exact descendDefault_imp_descend f _ rest q hq
      | some a0 =>
        rw [ha] at hpa'
        have hdesca : descend f a0 rest = none := hpa'
        have hamem : (n, a0) ∈ a := alookup_eq_some_mem ha
        have h1 : alookup n (copyChildrenFold (copyPrimF (f + 1)) a []) =
            some (copyPrimF (f + 1) a0 (alookup n ([] : Doc))) :=
          copyChildrenFold_alookup_split _ _ hand n a0 hamem _
        have h2 : alookup n (mergeRun (f + 1) a b)
            = some (copyPrimF (f + 1) b0
              (some (copyPrimF (f + 1) a0 (alookup n ([] : Doc))))) := by
          rw [hout, copyChildrenFold_alookup_split _ _ hbnd n b0 hbmem _, h1]
        have hnone : descendDefault f
            (copyPrimF (f + 1) a0 (alookup n ([] : Doc))) rest = none :=
          copyPrim_fresh_default_none f a0 rest (hawf _ hamem) hdesca
        rcases copyPrim_descend_type f b0
          (some (copyPrimF (f + 1) a0 (alookup n ([] : Doc)))) rest p
          (hbwf _ hbmem) hdescb with ⟨q, hq, hqt⟩
        have hqt' : q.typeName = orXform p.typeName := by
          rw [hqt]
          show (match descendDefault f
              (copyPrimF (f + 1) a0 (alookup n ([] : Doc))) rest with
            | some ex => ex.typeName
            | none => orXform p.typeName) = _
          rw [hnone]
        refine ⟨q, ?_, hqt'⟩
        show (alookup n (mergeRun (f + 1) a b)).bind
          (fun x => descend f x rest) = some q
        rw [h2]
        exact descendDefault_imp_descend f _ rest q hq

/-- C5 witness: with A defining `/X` as `Sphere` and B defining `/X` as
`Cube` and `/N` (absent from A), the merged `/X` carries A's type and
the merged `/N` carries B's. -/
theorem C5_merged_types_witness :
    (∃ q, docNodeAt 1 (mergeRun 2 [("X", Prim.newPrim "Sphere")]
        [("X", Prim.newPrim "Cube"), ("N", c6Src)]) ["X"] = some q ∧
      q.typeName = "Sphere") ∧
    (∃ q, docNodeAt 1 (mergeRun 2 [("X", Prim.newPrim "Sphere")]
        [("X", Prim.newPrim "Cube"), ("N", c6Src)]) ["N"] = some q ∧
      q.typeName = "Xform") := by
  constructor
  · exact (C5_merged_types 1 [("X", Prim.newPrim "Sphere")]
      [("X", Prim.newPrim "Cube"), ("N", c6Src)] ["X"] (by decide)
      (by decide) (by decide) (by decide)).1 (Prim.newPrim "Sphere") rfl
  · exact (C5_merged_types 1 [("X", Prim.newPrim "Sphere")]
      [("X", Prim.newPrim "Cube"), ("N", c6Src)] ["N"] (by decide)
      (by decide) (by decide) (by decide)).2 c6Src rfl rfl


/-! ## Validator mutation analysis: the run only rewrites selections -/

/-- Fold a step that keeps a plain invariant. -/
theorem foldl_inv {α β : Type} (P : α → Prop) (f : α → β → α)
    (hstep : ∀ x b, P x → P (f x b)) (l : List β) (a : α) (ha : P a) :
    P (l.foldl f a) := by
  induction l generalizing a with
  | nil => exact ha
  | cons b bs ih => exact ih _ (hstep a b ha)

/-- Upserting a value whose erasure matches the present entry's leaves
the list's selection erasure unchanged. -/
theorem map_erase_upsert (f : Nat) (n : String) (c c' : Prim)
    (l : List (String × Prim)) (hl : alookup n l = some c)
    (hcc : eraseSelF f c' = eraseSelF f c) :
    (upsert n c' l).map (fun e => (e.1, eraseSelF f e.2))
      = l.map (fun e => (e.1, eraseSelF f e.2)) := by
  induction l with
  | nil => simp [alookup] at hl
  | cons e rest ih =>
    by_cases he : (e.1 == n) = true
    · rw [alookup, if_pos he] at hl
      have hc := Option.some.inj hl
      have h1 : e.1 = n := beq_iff_eq.mp he
      rw [upsert, if_pos he]
      simp only [List.map_cons]
      rw [h1, hcc, hc]
    · rw [alookup, if_neg he] at hl
      rw [upsert, if_neg he, List.map_cons, List.map_cons, ih hl]

/-- A selection write is invisible under selection erasure. -/
theorem eraseSelF_setVSetSel (f : Nat) (p : Prim) (s v : String) :
    eraseSelF (f + 1) (p.setVSetSel s v) = eraseSelF (f + 1) p := by
  have hv : ∀ (L : List VSet),
      ((L.map (fun w => if w.name == s then w.withSel v else w)).map
        (fun vs => VSet.mk vs.name (vs.variants.map (fun w => Variant.mk w.name
          (w.children.map (fun e => (e.1, eraseSelF f e.2))))) ""))
      = L.map (fun vs => VSet.mk vs.name (vs.variants.map (fun w =>
          Variant.mk w.name (w.children.map (fun e =>
            (e.1, eraseSelF f e.2))))) "") := by
    intro L
    rw [List.map_map]
    refine List.map_congr_left ?_
    intro w _
    simp only [Function.comp]
    by_cases hw : (w.name == s) = true
    · rw [if_pos hw]
      rfl
    · rw [if_neg hw]
  show Prim.mk p.typeName p.metadata p.customData p.attrs p.rels
      ((p.vsets.map (fun w => if w.name == s then w.withSel v else w)).map
        (fun vs => VSet.mk vs.name (vs.variants.map (fun w => Variant.mk w.name
          (w.children.map (fun e => (e.1, eraseSelF f e.2))))) ""))
      (p.children.map (fun e => (e.1, eraseSelF f e.2)))
    = Prim.mk p.typeName p.metadata p.customData p.attrs p.rels
      (p.vsets.map (fun vs => VSet.mk vs.name (vs.variants.map (fun w =>
        Variant.mk w.name (w.children.map (fun e =>
          (e.1, eraseSelF f e.2))))) ""))
      (p.children.map (fun e => (e.1, eraseSelF f e.2)))
  rw [hv p.vsets]

/-- Replacing the found variant by one whose upserted child erases
equally leaves the variant list's erasure unchanged. -/
theorem map_erase_replaceFirstVariant (f : Nat) (sel n : String)
    (c c' : Prim) :
    ∀ (lv : List Variant) (var : Variant),
      lv.find? (fun w => w.name == sel) = some var →
      alookup n var.children = some c →
      eraseSelF f c' = eraseSelF f c →
      (replaceFirstVariant sel
          (fun w => w.withChildren (upsert n c' w.children)) lv).map
        (fun v => Variant.mk v.name
          (v.children.map (fun e => (e.1, eraseSelF f e.2))))
      = lv.map (fun v => Variant.mk v.name
          (v.children.map (fun e => (e.1, eraseSelF f e.2)))) := by
  intro lv
  induction lv with
  | nil =>
    intro var hf _ _
    simp [List.find?] at hf
  | cons w rest ih =>
    intro var hf hlook hcc
    simp only [List.find?_cons] at hf
    by_cases hw : (w.name == sel) = true
    · rw [hw] at hf
      have hv := Option.some.inj hf
      rw [← hv] at hlook
      cases w with
      | mk wn wch =>
        simp only [Variant.children] at hlook
        simp only [Variant.name] at hw
        simp only [replaceFirstVariant, Variant.name, Variant.withChildren,
          Variant.children]
        rw [if_pos hw]
        simp only [List.map_cons, Variant.name, Variant.children]
        rw [map_erase_upsert f n c c' wch hlook hcc]
    · have hw2 : (w.name == sel) = false := by
        cases hb : (w.name == sel)
        · rfl
        · exact absurd hb hw
      rw [hw2] at hf
      simp only [replaceFirstVariant]
      rw [if_neg hw]
      rw [List.map_cons, List.map_cons]
      rw [ih var hf hlook hcc]

/-- The composed-children fold only appends to its accumulator. -/
theorem composedFold_split : ∀ (L : List VSet)
    (acc : List (String × Prim)),
    ∃ rest, L.foldl
      (fun acc vs =>
        match vs.findVariant vs.sel with
        | some var => acc ++ var.children.filter (fun c => !(hasKey c.1 acc))
        | none => acc) acc = acc ++ rest := by
  intro L
  induction L with
  | nil => exact fun acc => ⟨[], by simp⟩
  | cons vs rest ih =>
    intro acc
    rw [List.foldl_cons]
    cases hv : vs.findVariant vs.sel with
    | none => simpa [hv] using ih acc
    | some var =>
      rcases ih (acc ++ var.children.filter (fun c => !(hasKey c.1 acc)))
        with ⟨r, hr⟩
      refine ⟨var.children.filter (fun c => !(hasKey c.1 acc)) ++ r, ?_⟩
      dsimp only
      rw [hr, List.append_assoc]

/-- A key already present in the accumulator keeps its binding through
the composed-children fold. -/
theorem alookup_composedFold_of_mem (n : String) (L : List VSet)
    (acc : List (String × Prim)) (h : n ∈ keysOf acc) :
    alookup n (L.foldl
      (fun acc vs =>
        match vs.findVariant vs.sel with
        | some var => acc ++ var.children.filter (fun c => !(hasKey c.1 acc))
        | none => acc) acc) = alookup n acc := by
  rcases composedFold_split L acc with ⟨r, hr⟩
  rw [hr, alookup_append_left _ _ _ h]

/-- Filtering out entries whose key the accumulator already holds does
not change the lookup of a key the accumulator lacks. -/
theorem alookup_filter_keys (n : String) (acc : List (String × Prim))
    (hn : hasKey n acc = false) :
    ∀ (l : List (String × Prim)),
      alookup n (l.filter (fun e => !(hasKey e.1 acc))) = alookup n l := by
  intro l
  induction l with
  | nil => rfl
  | cons e rest ih =>
    rw [List.filter_cons]
    by_cases he : (e.1 == n) = true
    · have h1 : e.1 = n := beq_iff_eq.mp he
      rw [if_pos (by rw [h1, hn]; rfl)]
      rw [alookup, if_pos he, alookup, if_pos he]
    · by_cases hkeep : (!(hasKey e.1 acc)) = true
      · rw [if_pos hkeep, alookup, if_neg he, alookup, if_neg he]
        exact ih
      · rw [if_neg hkeep, ih, alookup, if_neg he]

/-- Writing a child whose erasure matches the composed original back
into the variant scopes leaves the variant sets' erasure unchanged. -/
theorem setChildInVSets_map_erase (f : Nat) (n : String) (c c' : Prim)
    (hcc : eraseSelF f c' = eraseSelF f c) :
    ∀ (L : List VSet) (acc : List (String × Prim)),
      ¬ n ∈ keysOf acc →
      alookup n (L.foldl
        (fun a w =>
          match w.findVariant w.sel with
          | some var => a ++ var.children.filter (fun e => !(hasKey e.1 a))
          | none => a) acc) = some c →
      (setChildInVSets n c' L).map
        (fun vs => VSet.mk vs.name (vs.variants.map (fun v => Variant.mk v.name
          (v.children.map (fun e => (e.1, eraseSelF f e.2))))) "")
      = L.map
        (fun vs => VSet.mk vs.name (vs.variants.map (fun v => Variant.mk v.name
          (v.children.map (fun e => (e.1, eraseSelF f e.2))))) "") := by
  intro L
  induction L with
  | nil =>
    intro acc hacc hl
    have hl2 : alookup n acc = some c := hl
    exact absurd ((alookup_isSome_iff_mem_keysOf n acc).1
      (by rw [hl2]; rfl)) hacc
  | cons vs rest ih =>
    intro acc hacc hl
    rw [List.foldl_cons] at hl
    have hkacc : hasKey n acc = false := by
      cases hb : hasKey n acc
      · rfl
      · exact absurd ((hasKey_iff_mem_keysOf n acc).1 hb) hacc
    rcases hv : vs.findVariant vs.sel with _ | var
    · have hstep : (match vs.findVariant vs.sel with
          | some var => acc ++ var.children.filter (fun e => !(hasKey e.1 acc))
          | none => acc) = acc := by
        rw [hv]
      rw [hstep] at hl
      rw [setChildInVSets, hv]
      simp only [List.map_cons]
      rw [ih acc hacc hl]
    · have hstep : (match vs.findVariant vs.sel with
          | some var => acc ++ var.children.filter (fun e => !(hasKey e.1 acc))
          | none => acc)
          = acc ++ var.children.filter (fun e => !(hasKey e.1 acc)) := by
        rw [hv]
      rw [hstep] at hl
      by_cases hkv : hasKey n var.children = true
      · -- the composed entry comes from this set's selected variant
        have hmemv := (hasKey_iff_mem_keysOf n var.children).1 hkv
        have hex : ∃ e ∈ var.children, e.1 = n := by
          simpa only [keysOf, List.mem_map] using hmemv
        rcases hex with ⟨e0, he0, he1⟩
        have he0f : e0 ∈ var.children.filter (fun e => !(hasKey e.1 acc)) := by
          refine List.mem_filter.mpr ⟨he0, ?_⟩
          show (!(hasKey e0.1 acc)) = true
          rw [he1, hkacc]
          rfl
        have hmemf : n ∈ keysOf (var.children.filter
            (fun e => !(hasKey e.1 acc))) := by
          simp only [keysOf, List.mem_map]
          exact ⟨e0, he0f, he1⟩
        have hmemapp : n ∈ keysOf (acc ++ var.children.filter
            (fun e => !(hasKey e.1 acc))) := by
          rw [keysOf_append]
          exact List.mem_append_right _ hmemf
        rw [alookup_composedFold_of_mem n rest _ hmemapp] at hl
        rw [alookup_append_right n acc _ hacc] at hl
        rw [alookup_filter_keys n acc hkacc var.children] at hl
        have hfind : vs.variants.find? (fun w => w.name == vs.sel)
            = some var := hv
        rw [setChildInVSets, hv]
        dsimp only
        rw [if_pos hkv]
        simp only [List.map_cons]
        rw [name_withVariants, variants_withVariants]
        rw [map_erase_replaceFirstVariant f vs.sel n c c' vs.variants var
          hfind hl hcc]
      · have hacc2 : ¬ n ∈ keysOf (acc ++ var.children.filter
            (fun e => !(hasKey e.1 acc))) := by
          rw [keysOf_append]
          intro hmem
          rcases List.mem_append.mp hmem with h | h
          · exact hacc h
          · have hex2 : ∃ e ∈ var.children.filter
                (fun e => !(hasKey e.1 acc)), e.1 = n := by
              simpa only [keysOf, List.mem_map] using h
            rcases hex2 with ⟨e0, he0, he1⟩
            exact hkv ((hasKey_iff_mem_keysOf n var.children).2
              (by
                simp only [keysOf, List.mem_map]
                exact ⟨e0, (List.mem_filter.mp he0).1, he1⟩))
        rw [setChildInVSets, hv]
        dsimp only
        rw [if_neg hkv]
        simp only [List.map_cons]
        rw [ih _ hacc2 hl]

/-- Writing a child whose erasure matches the composed original back to
its scope leaves the whole prim's erasure unchanged. -/
theorem eraseSelF_setComposedChild (f : Nat) (p : Prim) (n : String)
    (c c' : Prim) (hc : getComposedChild p n = some c)
    (hcc : eraseSelF f c' = eraseSelF f c) :
    eraseSelF (f + 1) (setComposedChild p n c') = eraseSelF (f + 1) p := by
  by_cases hk : hasKey n p.children = true
  · have hmem := (hasKey_iff_mem_keysOf n p.children).1 hk
    have hlook : alookup n p.children = some c := by
      rw [← getComposedChild_of_mem_children p n hmem]
      exact hc
    rw [setComposedChild, if_pos hk]
    show Prim.mk p.typeName p.metadata p.customData p.attrs p.rels
        (p.vsets.map (fun vs => VSet.mk vs.name (vs.variants.map (fun v =>
          Variant.mk v.name (v.children.map (fun e =>
            (e.1, eraseSelF f e.2))))) ""))
        ((upsert n c' p.children).map (fun e => (e.1, eraseSelF f e.2)))
      = Prim.mk p.typeName p.metadata p.customData p.attrs p.rels
        (p.vsets.map (fun vs => VSet.mk vs.name (vs.variants.map (fun v =>
          Variant.mk v.name (v.children.map (fun e =>
            (e.1, eraseSelF f e.2))))) ""))
        (p.children.map (fun e => (e.1, eraseSelF f e.2)))
    rw [map_erase_upsert f n c c' p.children hlook hcc]
  · have hnm : ¬ n ∈ keysOf p.children := fun hmem =>
      hk ((hasKey_iff_mem_keysOf n p.children).2 hmem)
    have hl : alookup n (p.vsets.foldl
        (fun a w =>
          match w.findVariant w.sel with
          | some var => a ++ var.children.filter (fun e => !(hasKey e.1 a))
          | none => a) p.children) = some c := hc
    rw [setComposedChild, if_neg hk]
    show Prim.mk p.typeName p.metadata p.customData p.attrs p.rels
        ((setChildInVSets n c' p.vsets).map (fun vs => VSet.mk vs.name
          (vs.variants.map (fun v => Variant.mk v.name (v.children.map
            (fun e => (e.1, eraseSelF f e.2))))) ""))
        (p.children.map (fun e => (e.1, eraseSelF f e.2)))
      = Prim.mk p.typeName p.metadata p.customData p.attrs p.rels
        (p.vsets.map (fun vs => VSet.mk vs.name (vs.variants.map (fun v =>
          Variant.mk v.name (v.children.map (fun e =>
            (e.1, eraseSelF f e.2))))) ""))
        (p.children.map (fun e => (e.1, eraseSelF f e.2)))
    rw [setChildInVSets_map_erase f n c c' hcc p.vsets p.children hnm hl]

/-- The variant-set validation pass mutates the two prims only through
selection writes: both leave the traversal erasure-equal to their
originals, provided the recursive validation does so at one less
depth. -/
theorem validateVariantSets_preserves (f : Nat)
    (rec : String → Prim → Option Prim → List Diag × Prim × Option Prim)
    (hrec : ∀ pth s od,
      eraseSelF f (rec pth s od).2.1 = eraseSelF f s ∧
      ((rec pth s od).2.2).map (eraseSelF f) = od.map (eraseSelF f))
    (path : String) (src dst : Prim) :
    eraseSelF (f + 1) (validateVariantSets rec path src dst).2.1
      = eraseSelF (f + 1) src ∧
    eraseSelF (f + 1) (validateVariantSets rec path src dst).2.2
      = eraseSelF (f + 1) dst := by
  unfold validateVariantSets
  dsimp only
  refine foldl_inv
    (fun st : List Diag × Prim × Prim =>
      eraseSelF (f + 1) st.2.1 = eraseSelF (f + 1) src ∧
      eraseSelF (f + 1) st.2.2 = eraseSelF (f + 1) dst)
    _ ?_ _ _ ⟨rfl, rfl⟩
  intro st name hst
  dsimp only
  rcases hfs : st.2.1.findVSet name with _ | svar
  · exact hst
  · rcases hfd : st.2.2.findVSet name with _ | dvar
    · exact hst
    · dsimp only
      refine foldl_inv
        (fun st : List Diag × Prim × Prim =>
          eraseSelF (f + 1) st.2.1 = eraseSelF (f + 1) src ∧
          eraseSelF (f + 1) st.2.2 = eraseSelF (f + 1) dst)
        _ ?_ _ _ ⟨hst.1, hst.2⟩
      intro st2 v hst2
      dsimp only
      refine foldl_inv
        (fun st : List Diag × Prim × Prim =>
          eraseSelF (f + 1) st.2.1 = eraseSelF (f + 1) src ∧
          eraseSelF (f + 1) st.2.2 = eraseSelF (f + 1) dst)
        _ ?_ _ _
        ⟨(eraseSelF_setVSetSel f st2.2.1 name v).trans hst2.1,
         (eraseSelF_setVSetSel f st2.2.2 name v).trans hst2.2⟩
      intro st3 cn hst3
      dsimp only
      rcases hgc : getComposedChild st3.2.1 cn with _ | c
      · exact hst3
      · rcases hgd : getComposedChild st3.2.2 cn with _ | dc
        · exact hst3
        · dsimp only
          constructor
          · exact (eraseSelF_setComposedChild f st3.2.1 cn c _ hgc
              (hrec (path ++ "/" ++ cn) c (some dc)).1).trans hst3.1
          · rcases hr2 : (rec (path ++ "/" ++ cn) c (some dc)).2.2
              with _ | dc2
            · exact hst3.2
            · have h9 := (hrec (path ++ "/" ++ cn) c (some dc)).2
              rw [hr2] at h9
              simp only [Option.map_some'] at h9
              have h10 := Option.some.inj h9
              exact (eraseSelF_setComposedChild f st3.2.2 cn dc dc2
                hgd h10).trans hst3.2

/-- The recursive prim validation mutates the source prim and the
destination prim only through selection writes, to the depth of its
fuel. -/
theorem validatePrimF_preserves (f : Nat) :
    ∀ (path : String) (src : Prim) (odst : Option Prim),
      eraseSelF f (validatePrimF f path src odst).2.1 = eraseSelF f src ∧
      ((validatePrimF f path src odst).2.2).map (eraseSelF f)
        = odst.map (eraseSelF f) := by
  induction f with
  | zero => exact fun path src odst => ⟨rfl, rfl⟩
  | succ f ih =>
    intro path src odst
    cases odst with
    | none => exact ⟨rfl, rfl⟩
    | some d =>
      have h3 := validateVariantSets_preserves f (validatePrimF f) ih
        path src d
      simp only [validatePrimF]
      simp only [Option.map_some']
      refine foldl_inv
        (fun st : List Diag × Prim × Prim =>
          eraseSelF (f + 1) st.2.1 = eraseSelF (f + 1) src ∧
          some (eraseSelF (f + 1) st.2.2) = some (eraseSelF (f + 1) d))
        _ ?_ _ _ ⟨h3.1, congrArg some h3.2⟩
      intro st cn hst
      dsimp only
      rcases hgc : getComposedChild st.2.1 cn with _ | c
      · exact hst
      · dsimp only
        constructor
        · exact (eraseSelF_setComposedChild f st.2.1 cn c _ hgc
            (ih (path ++ "/" ++ cn) c (getComposedChild st.2.2 cn)).1).trans
            hst.1
        · rcases hr2 : (validatePrimF f (path ++ "/" ++ cn) c
              (getComposedChild st.2.2 cn)).2.2 with _ | dc2
          · exact hst.2
          · have h9 := (ih (path ++ "/" ++ cn) c
              (getComposedChild st.2.2 cn)).2
            rw [hr2] at h9
            rcases hgd : getComposedChild st.2.2 cn with _ | dc
            · rw [hgd] at h9
              simp at h9
            · rw [hgd] at h9
              simp only [Option.map_some'] at h9
              have h10 := Option.some.inj h9
              exact congrArg some
                ((eraseSelF_setComposedChild f st.2.2 cn dc dc2
                  hgd h10).trans (Option.some.inj hst.2))

/-- One validator source pass mutates the composed document only
through selection writes. -/
theorem validatePass_preserves (f : Nat) (src comp : Doc) :
    eraseSelDocF f (validatePass f src comp).2.2 = eraseSelDocF f comp := by
  unfold validatePass
  refine foldl_inv
    (fun st : List Diag × Doc × Doc =>
      eraseSelDocF f st.2.2 = eraseSelDocF f comp)
    _ ?_ _ _ rfl
  intro st n hst
  dsimp only
  rcases hs : alookup n st.2.1 with _ | p
  · exact hst
  · dsimp only
    rcases hr2 : (validatePrimF f ("/" ++ n) p (alookup n st.2.2)).2.2
      with _ | dnew
    · exact hst
    · have h9 := (validatePrimF_preserves f ("/" ++ n) p
        (alookup n st.2.2)).2
      rw [hr2] at h9
      rcases ho : alookup n st.2.2 with _ | dc
      · rw [ho] at h9
        simp at h9
      · rw [ho] at h9
        simp only [Option.map_some'] at h9
        have h10 := Option.some.inj h9
        have h11 : eraseSelDocF f (upsert n dnew st.2.2)
            = eraseSelDocF f st.2.2 := by
          show (upsert n dnew st.2.2).map (fun e => (e.1, eraseSelF f e.2))
            = st.2.2.map (fun e => (e.1, eraseSelF f e.2))
          exact map_erase_upsert f n dc dnew st.2.2 ho h10
        exact h11.trans hst

/-- C8: amended — a validation run rewrites nothing but variant-set
selections.  Erasing every selection (to any uniform depth, in default
and variant scopes alike), the composed/destination document after the
run equals the destination before it: metadata, custom data,
attributes, relationships, variant structure and children are all
untouched. -/
theorem C8_validator_preserves_all_but_selections (f : Nat) (a b c : Doc) :
    eraseSelDocF f (validateDst f a b c) = eraseSelDocF f c := by
  unfold validateDst validateRun
  dsimp only
  exact (validatePass_preserves f b (validatePass f a c).2.2).trans
    (validatePass_preserves f a c)

end USDComp
